import Mathlib

/-!
# The grabber game of `resources/Metaphor2/game.js`

A shallow embedding of the game module `G` (the maze layout, `find_floor`,
`draw_map`, `G.init`, `G.move`) together with the facts the specification states
about it.

Modelling conventions.

* The module-level variables `map`, `grab_x`, `grab_y`, `score`, `gold_count`
  are the fields of `G.State`.  `grab_x` and `grab_y` are declared without a
  value and are assigned by `draw_map`; a `State` describes the variables from
  that assignment on, so both are integers.
* The script's numbers are IEEE doubles; the numbers of the game are integer
  valued and are modelled as integers.  The additions to the counters,
  `score += GOLD_VALUE` and `gold_count += 1`, are `js_add`: the exact sum
  rounded to the nearest double, which is the exact sum below `2^53` and no
  longer is from `2^53` on.  The candidate position `grab_x + h`, `grab_y + v`
  is the exact sum: it is used only when it lies on the grid, where the
  rounded and the exact sum agree, and rounding never brings a sum from off
  the grid onto it.  `toString` is the decimal numeral the script's string
  concatenation produces for integers below `10^21`.
* An array read `map[loc]` is `cell m loc : Option Int`; `none` is the script's
  `undefined` (an index outside the array).
* Calls into the Perlenspiel engine (`PS.color`, `PS.glyph`, `PS.statusText`,
  `PS.audioPlay`, ...) are recorded, in order, as a list of `Call`s.
* The engine's colour constants are not part of the repository; they are the
  fields of the parameter `Engine`.  Likewise the arrow-key codes named by
  `PS.keyDown` are the fields of the parameter `Keys`.
* `PS.random` is not part of the repository either.  A run is driven by the
  finite list of values the generator returns, consumed front to back; a run
  that needs more values than the list holds has not terminated on that list.
  The engine's contract, `PS.random n` lies in `[1, n]`, is the predicate
  `SamplesOK`.
-/

set_option maxRecDepth 100000
set_option exponentiation.threshold 512

namespace G

/-- Width of the grid (`var WIDTH = 20`). -/
def WIDTH : Int := 20

/-- Height of the grid (`var HEIGHT = 20`). -/
def HEIGHT : Int := 20

/-- Grabber colour (`let COLOR_GRAB = 0x15E2`). -/
def COLOR_GRAB : Int := 0x15E2

/-- Gold colour (`var COLOR_GOLD = 0x2915`). -/
def COLOR_GOLD : Int := 0x2915

/-- Maximum number of gold pieces (`var GOLD_MAX = 15`). -/
def GOLD_MAX : Int := 15

/-- Value of each gold piece (`var GOLD_VALUE = 1`). -/
def GOLD_VALUE : Int := 1

/-- Colour constants of the Perlenspiel engine used by the script. -/
structure Engine where
  COLOR_INDIGO : Int
  COLOR_BLACK : Int
  COLOR_GRAY_LIGHT : Int

/-- Floor colour (`var COLOR_FLOOR = PS.COLOR_INDIGO`). -/
def COLOR_FLOOR (PS : Engine) : Int := PS.COLOR_INDIGO

/-- Wall colour (`var COLOR_WALL = PS.COLOR_BLACK`). -/
def COLOR_WALL (PS : Engine) : Int := PS.COLOR_BLACK

/-- One call into the engine, with its arguments in the order the script
passes them. -/
inductive Call where
  -- `PS.gridSize(w, h)`
  | gridSize (w h : Int)
  -- `PS.color(PS.ALL, PS.ALL, c)`
  | colorAll (c : Int)
  -- `PS.border(PS.ALL, PS.ALL, w)`
  | borderAll (w : Int)
  -- `PS.color(x, y, c)`
  | color (x y c : Int)
  -- `PS.glyph(x, y, g)`
  | glyph (x y g : Int)
  -- `PS.glyphColor(x, y, c)`
  | glyphColor (x y c : Int)
  -- `PS.statusText(t)`
  | statusText (t : String)
  -- `PS.audioPlay(name)`
  | audioPlay (name : String)
deriving DecidableEq

/-- The static layout (`var map = [...]`): `0` = wall, `1` = floor. -/
def map : List Int := [
  0, 0, 0, 0, 0, 0, 0, 0, 0, 0, 0, 0, 0, 0, 0, 0, 0, 0, 0, 0,
  0, 1, 0, 1, 1, 1, 1, 1, 1, 1, 1, 1, 1, 1, 0, 1, 1, 0, 1, 0,
  0, 1, 0, 0, 0, 0, 1, 0, 0, 1, 1, 1, 0, 0, 0, 1, 1, 0, 1, 0,
  0, 1, 0, 1, 1, 0, 0, 0, 1, 1, 0, 0, 0, 1, 1, 1, 0, 0, 1, 0,
  0, 1, 1, 1, 1, 0, 1, 1, 1, 1, 1, 1, 1, 1, 0, 0, 0, 1, 1, 0,
  0, 1, 0, 0, 1, 1, 1, 0, 0, 1, 0, 0, 1, 1, 1, 1, 1, 1, 1, 0,
  0, 1, 1, 0, 0, 0, 1, 1, 0, 0, 1, 1, 1, 1, 1, 1, 0, 1, 1, 0,
  0, 0, 1, 1, 1, 0, 1, 0, 1, 1, 1, 1, 0, 1, 0, 0, 0, 1, 1, 0,
  0, 1, 0, 0, 1, 0, 1, 0, 1, 1, 0, 0, 0, 1, 0, 1, 1, 1, 1, 0,
  0, 1, 1, 1, 1, 0, 1, 0, 0, 1, 0, 1, 1, 1, 0, 1, 1, 0, 0, 0,
  0, 0, 0, 0, 1, 0, 1, 1, 1, 1, 0, 0, 1, 1, 0, 1, 0, 0, 1, 0,
  0, 1, 1, 1, 1, 0, 0, 0, 1, 1, 1, 0, 0, 1, 1, 1, 1, 1, 1, 0,
  0, 1, 0, 0, 1, 1, 1, 0, 1, 1, 1, 1, 0, 0, 0, 1, 1, 0, 1, 0,
  0, 1, 0, 1, 1, 1, 1, 0, 1, 0, 0, 1, 1, 1, 0, 1, 0, 1, 1, 0,
  0, 1, 1, 1, 0, 1, 1, 1, 1, 1, 0, 1, 1, 1, 0, 1, 1, 0, 1, 0,
  0, 1, 0, 0, 0, 1, 0, 1, 1, 1, 0, 1, 1, 1, 0, 1, 1, 0, 0, 0,
  0, 0, 0, 1, 0, 1, 0, 1, 0, 0, 0, 0, 0, 1, 1, 1, 0, 0, 1, 0,
  0, 1, 1, 1, 0, 1, 0, 1, 0, 1, 1, 1, 0, 1, 0, 0, 0, 1, 1, 0,
  0, 1, 0, 1, 1, 1, 0, 1, 1, 1, 1, 1, 1, 1, 1, 1, 1, 1, 1, 0,
  0, 0, 0, 0, 0, 0, 0, 0, 0, 0, 0, 0, 0, 0, 0, 0, 0, 0, 0, 0]

/-- The array read `m[loc]`; `none` is `undefined`. -/
def cell (m : List Int) (loc : Int) : Option Int :=
  if 0 ≤ loc then m.get? loc.toNat else none

/-- The array write `m[loc] = c`.  The script writes only at an index it has
just read a number from, so the write never extends the array. -/
def store (m : List Int) (loc : Int) (c : Int) : List Int :=
  if 0 ≤ loc then m.set loc.toNat c else m

/-- The module-level variables of `G` once the grabber has been placed. -/
structure State where
  map : List Int
  grab_x : Int
  grab_y : Int
  score : Int
  gold_count : Int
deriving DecidableEq

/-- What one call of `find_floor` leaves behind: the updated map, the returned
`x` and `y`, the engine calls it made and the random values not yet consumed. -/
structure Placed where
  map : List Int
  x : Int
  y : Int
  calls : List Call
  rest : List Int
deriving DecidableEq

/-- The engine calls `find_floor` makes after the loop, for the chosen cell. -/
def place_calls (PS : Engine) (xpos ypos code set : Int) : List Call :=
  (if set = 2 ∨ set = 3 then
      [Call.glyph xpos ypos code, Call.glyphColor xpos ypos PS.COLOR_GRAY_LIGHT]
    else []) ++
  (if set = 0 ∨ set = 1 then [Call.color xpos ypos code] else [])

/-- The function `find_floor(item, code, set)` on the map `m`, driven by the
random values `rnd`: each round of the `do ... while` loop draws
`PS.random(WIDTH)` and then `PS.random(HEIGHT)`. -/
def find_floor (PS : Engine) (m : List Int) (item code set : Int) :
    List Int → Option Placed
  | rx :: ry :: rest =>
    let xpos := rx - 1
    let ypos := ry - 1
    let loc := (ypos * WIDTH) + xpos
    let data := cell m loc
    if data ≠ some 1 then find_floor PS m item code set rest
    else some
      { map := store m loc item
        x := xpos
        y := ypos
        calls := place_calls PS xpos ypos code set
        rest := rest }
  | _ => none

/-- The first loop nest of `draw_map`: one `PS.color(x, y, COLOR_WALL)` for
every wall cell, row by row. -/
def wall_calls (PS : Engine) (m : List Int) : List Call :=
  (List.range HEIGHT.toNat).flatMap fun y =>
    (List.range WIDTH.toNat).filterMap fun x =>
      if cell m (((y : Int) * WIDTH) + (x : Int)) = some 0 then
        some (Call.color (x : Int) (y : Int) (COLOR_WALL PS))
      else none

/-- The gold loop of `draw_map` run `n` times:
`find_floor( 2, COLOR_GOLD, 2 )`, the returned positions being dropped. -/
def place_gold (PS : Engine) : Nat → List Int → List Int →
    Option (List Int × List Call × List Int)
  | 0, m, rnd => some (m, [], rnd)
  | n + 1, m, rnd =>
    match find_floor PS m 2 COLOR_GOLD 2 rnd with
    | none => none
    | some p =>
      match place_gold PS n p.map p.rest with
      | none => none
      | some (m2, calls, rest) => some (m2, p.calls ++ calls, rest)

/-- The function `draw_map` on the map `m`: the updated map, the grabber
position `(grab_x, grab_y)` it assigns, and the engine calls it makes. -/
def draw_map (PS : Engine) (m : List Int) (rnd : List Int) :
    Option (List Int × Int × Int × List Call) :=
  match place_gold PS GOLD_MAX.toNat m rnd with
  | none => none
  | some (m1, goldCalls, rnd1) =>
    match find_floor PS m1 3 COLOR_GRAB 3 rnd1 with
    | none => none
    | some pos =>
      let grab_x := pos.x
      let grab_y := pos.y
      some (pos.map, grab_x, grab_y,
        wall_calls PS m ++ goldCalls ++ pos.calls ++
          [Call.glyphColor grab_y grab_x 0xFFC040])

/-- The function `G.init`, run on the module as loaded (`map` the static
layout, `score = 0`, `gold_count = 0`): the state it leaves and the engine
calls it makes. -/
def init (PS : Engine) (rnd : List Int) : Option (State × List Call) :=
  match draw_map PS map rnd with
  | none => none
  | some (m, gx, gy, calls) =>
    some ({ map := m, grab_x := gx, grab_y := gy, score := 0, gold_count := 0 },
      [Call.gridSize WIDTH HEIGHT, Call.colorAll (COLOR_FLOOR PS), Call.borderAll 0]
        ++ calls ++ [Call.statusText "Use arrows/WASD to grab fish"])

/-- The spacing of the doubles around a natural number `a`: the least power of
two `u`, searched from `u` upwards in at most `fuel` doublings, with
`a / u < 2 ^ 53` (a significand of 53 bits). -/
def ulp_from : Nat → Nat → Nat → Nat
  | 0, _, u => u
  | fuel + 1, a, u => if a / u < 2 ^ 53 then u else ulp_from fuel a (2 * u)

/-- An integer rounded to the nearest double, ties to the even significand.
Every integer below `2 ^ 53` in size is a double.  Overflow to `Infinity`
(from `2 ^ 1024` on) is not modelled. -/
def round_double (z : Int) : Int :=
  let a := z.natAbs
  let u := ulp_from a a 1
  let q := a / u
  let r := a % u
  let q2 := if 2 * r > u ∨ (2 * r = u ∧ q % 2 = 1) then q + 1 else q
  if z < 0 then -((q2 * u : Nat) : Int) else ((q2 * u : Nat) : Int)

/-- The script's `a + b` on integer-valued numbers: the exact sum, rounded to
the nearest double. -/
def js_add (a b : Int) : Int := round_double (a + b)

/-- The gold branch of `G.move` (`data === 2`) at index `loc`: the cell becomes
floor, `score += GOLD_VALUE` and `gold_count += 1` are carried out as the
script's additions, and the status line and sound are issued. -/
def grab_gold (s : State) (loc : Int) : State × List Call :=
  let score := js_add s.score GOLD_VALUE
  let gold_count := js_add s.gold_count 1
  ({ s with map := store s.map loc 1, score := score, gold_count := gold_count },
    if gold_count ≥ GOLD_MAX then
      [Call.statusText ("You win with " ++ toString score ++ " fish!"),
        Call.audioPlay "fx_tada"]
    else
      [Call.statusText ("Score = " ++ toString score), Call.audioPlay "fx_coin7"])

/-- The function `G.move(h, v)`: the state after the call and the engine
calls it made. -/
def move (PS : Engine) (s : State) (h v : Int) : State × List Call :=
  let nx := s.grab_x + h
  let ny := s.grab_y + v
  if nx < 0 ∨ nx ≥ WIDTH ∨ ny < 0 ∨ ny ≥ HEIGHT then (s, [])
  else
    let loc := (ny * WIDTH) + nx
    let data := cell s.map loc
    if data = some 0 then (s, [])
    else
      let r := if data = some 2 then grab_gold s loc else (s, [])
      ({ r.1 with grab_x := nx, grab_y := ny },
        r.2 ++
          [Call.color s.grab_x s.grab_y (COLOR_FLOOR PS),
            Call.glyph s.grab_x s.grab_y 0,
            Call.glyph nx ny COLOR_GRAB,
            Call.glyphColor nx ny 0xFFC040])

/-- The grid test of `move`, negated: `(x, y)` lies on the grid. -/
def InBounds (x y : Int) : Prop := 0 ≤ x ∧ x < WIDTH ∧ 0 ≤ y ∧ y < HEIGHT

instance instDecidableInBounds (x y : Int) : Decidable (InBounds x y) := by
  unfold InBounds
  infer_instance

/-- Both counters are below `2 ^ 53 = 9007199254740992` in size, the range in
which adding 1 to a double is exact. -/
def SafeCounters (s : State) : Prop :=
  (-9007199254740992 < s.score ∧ s.score < 9007199254740992) ∧
  (-9007199254740992 < s.gold_count ∧ s.gold_count < 9007199254740992)

instance instDecidableSafeCounters (s : State) : Decidable (SafeCounters s) := by
  unfold SafeCounters
  infer_instance

/-- The contract of the engine's generator on the values a run consumes:
each round of `find_floor` draws `PS.random(WIDTH)`, a value in `[1, WIDTH]`,
and then `PS.random(HEIGHT)`, a value in `[1, HEIGHT]`. -/
def SamplesOK : List Int → Prop
  | rx :: ry :: rest =>
    (1 ≤ rx ∧ rx ≤ WIDTH) ∧ (1 ≤ ry ∧ ry ≤ HEIGHT) ∧ SamplesOK rest
  | _ => True

/-- A sequence of `G.move` calls, each `(h, v)` in turn: the final state and
all engine calls made, in order. -/
def run (PS : Engine) (s : State) : List (Int × Int) → State × List Call
  | [] => (s, [])
  | hv :: rest =>
    let r := move PS s hv.1 hv.2
    let r2 := run PS r.1 rest
    (r2.1, r.2 ++ r2.2)

/-- The states the game can be in: those `G.init` produces on values the
generator can return, and those reached from them by calls of `G.move`. -/
inductive Reachable (PS : Engine) : State → Prop where
  | init {rnd : List Int} {s : State} {calls : List Call} :
      SamplesOK rnd → init PS rnd = some (s, calls) → Reachable PS s
  | move {s : State} (h v : Int) :
      Reachable PS s → Reachable PS (move PS s h v).1

/-- Whether a call is `PS.statusText`. -/
def Call.isStatusText : Call → Bool
  | Call.statusText _ => true
  | _ => false

/-- Whether a call is `PS.audioPlay`. -/
def Call.isAudio : Call → Bool
  | Call.audioPlay _ => true
  | _ => false

/-- The four render calls that end every legal `G.move(h, v)` from state `s`:
the old cell is repainted and cleared, the grabber drawn at the new cell. -/
def move_render (PS : Engine) (s : State) (h v : Int) : List Call :=
  [Call.color s.grab_x s.grab_y (COLOR_FLOOR PS),
    Call.glyph s.grab_x s.grab_y 0,
    Call.glyph (s.grab_x + h) (s.grab_y + v) COLOR_GRAB,
    Call.glyphColor (s.grab_x + h) (s.grab_y + v) 0xFFC040]

/-- The win branch of `G.move` was taken: it alone plays `fx_tada`. -/
def took_win (calls : List Call) : Prop := Call.audioPlay "fx_tada" ∈ calls

instance instDecidableTookWin (calls : List Call) : Decidable (took_win calls) := by
  unfold took_win
  infer_instance

/-- What holds of every reachable state. -/
structure Inv (s : State) : Prop where
  length_eq : s.map.length = 400
  in_bounds : InBounds s.grab_x s.grab_y
  not_wall : ∃ c, cell s.map ((s.grab_y * WIDTH) + s.grab_x) = some c ∧ c ≠ 0
  gold_sum : s.gold_count + (s.map.count 2 : Int) = GOLD_MAX
  score_eq : s.score = GOLD_VALUE * s.gold_count
  walls : ∀ i, cell s.map i = some 0 ↔ cell map i = some 0

/-- Engine constants for the worked examples. -/
def PS0 : Engine := { COLOR_INDIGO := 1, COLOR_BLACK := 2, COLOR_GRAY_LIGHT := 3 }

/-- Generator output for the worked examples: the first round hits the wall
`(0, 0)`, the second puts gold on `(1, 2)`, the third hits that gold again, the
next fourteen put gold along a corridor, the last puts the grabber on
`(1, 1)`. -/
def rnd0 : List Int :=
  [1, 1, 2, 3, 2, 3, 2, 4, 2, 5, 2, 6, 2, 7, 3, 7, 3, 8, 4, 8, 5, 8, 5, 9,
    5, 10, 4, 10, 3, 10, 2, 10, 2, 9, 2, 2]

/-- Fifteen unit moves that walk the corridor of `rnd0` from `(1, 1)`. -/
def moves0 : List (Int × Int) :=
  [(0, 1), (0, 1), (0, 1), (0, 1), (0, 1), (1, 0), (0, 1), (1, 0), (1, 0),
    (0, 1), (0, 1), (-1, 0), (-1, 0), (-1, 0), (0, -1)]

/-- The state `G.init` leaves on `rnd0`. -/
def state0 : State := ((init PS0 rnd0).getD (⟨[], 0, 0, 0, 0⟩, [])).1

/-- The engine calls `G.init` makes on `rnd0`. -/
def calls0 : List Call := ((init PS0 rnd0).getD (⟨[], 0, 0, 0, 0⟩, [])).2

/-- The state after `G.init` on `rnd0` and the first move of `moves0`. -/
def state1 : State := (move PS0 state0 0 1).1

/-- The state after `G.init` on `rnd0` and all of `moves0`. -/
def state15 : State := (run PS0 state0 moves0).1

/-- Key-code constants of the Perlenspiel engine named by `PS.keyDown`; they
are not part of the repository. -/
structure Keys where
  KEY_ARROW_UP : Int
  KEY_ARROW_DOWN : Int
  KEY_ARROW_LEFT : Int
  KEY_ARROW_RIGHT : Int

/-- The `switch ( key )` of `PS.keyDown`: the arguments of the one `G.move`
call made, `none` when no `case` label equals `key`.  The labels are tried in
source order. -/
def key_move (K : Keys) (key : Int) : Option (Int × Int) :=
  if key = K.KEY_ARROW_UP ∨ key = 119 ∨ key = 87 then some (0, -1)
  else if key = K.KEY_ARROW_DOWN ∨ key = 115 ∨ key = 83 then some (0, 1)
  else if key = K.KEY_ARROW_LEFT ∨ key = 97 ∨ key = 65 then some (-1, 0)
  else if key = K.KEY_ARROW_RIGHT ∨ key = 100 ∨ key = 68 then some (1, 0)
  else none

/-- The handler `PS.keyDown( key, shift, ctrl, options )`; only `key` is
used. -/
def keyDown (PS : Engine) (K : Keys) (s : State) (key : Int) : State × List Call :=
  match key_move K key with
  | some hv => move PS s hv.1 hv.2
  | none => (s, [])

/-- The arrow-key constants are four different codes, none of them one of the
letter codes the `switch` lists. -/
def KeysOK (K : Keys) : Prop :=
  [K.KEY_ARROW_UP, K.KEY_ARROW_DOWN, K.KEY_ARROW_LEFT, K.KEY_ARROW_RIGHT,
    119, 87, 115, 83, 97, 65, 100, 68].Nodup

instance instDecidableKeysOK (K : Keys) : Decidable (KeysOK K) := by
  unfold KeysOK
  infer_instance

/-- The four unit vectors `PS.keyDown` passes to `G.move`. -/
def unit_vectors : List (Int × Int) := [(0, -1), (0, 1), (-1, 0), (1, 0)]

/-- The bead a render call is addressed to: its first two arguments. -/
def Call.target : Call → Option (Int × Int)
  | Call.color x y _ => some (x, y)
  | Call.glyph x y _ => some (x, y)
  | Call.glyphColor x y _ => some (x, y)
  | _ => none

/-- The cell `(x, y)` lies on the grid and is not a wall of the static
layout. -/
def Open (q : Int × Int) : Prop :=
  InBounds q.1 q.2 ∧ ∃ c, cell map ((q.2 * WIDTH) + q.1) = some c ∧ c ≠ 0

/-- The cell a walk ends on: the start moved by every vector in turn. -/
def dest (p : Int × Int) : List (Int × Int) → Int × Int
  | [] => p
  | hv :: rest => dest (p.1 + hv.1, p.2 + hv.2) rest

/-- The cells a walk steps on, one per vector, the start not included. -/
def path (p : Int × Int) : List (Int × Int) → List (Int × Int)
  | [] => []
  | hv :: rest => (p.1 + hv.1, p.2 + hv.2) :: path (p.1 + hv.1, p.2 + hv.2) rest

/-- The unit vector a direction code stands for: `0` right, `1` down, `2` left,
`3` up. -/
def step_of (d : Nat) : Int × Int :=
  if d = 0 then (1, 0) else if d = 1 then (0, 1) else if d = 2 then (-1, 0) else (0, -1)

/-- Direction codes of a closed walk from `(1, 1)` over the floor of the static
layout. -/
def tour_codes : List Nat :=
  [1, 1, 1, 0, 0, 0, 1, 0, 0, 1, 0, 2, 1, 1, 1, 1, 0, 0, 0, 1, 0, 1, 0, 1, 0, 0, 1, 1, 1, 0, 0, 3, 0, 3,
    2, 3, 3, 0, 3, 0, 0, 1, 1, 1, 3, 2, 0, 3, 3, 3, 1, 2, 2, 2, 2, 2, 3, 2, 3, 0, 3, 3, 3, 0, 0, 3, 0, 0,
    0, 1, 1, 1, 2, 2, 1, 2, 1, 3, 3, 1, 0, 3, 0, 3, 3, 1, 1, 0, 3, 3, 3, 3, 2, 0, 3, 3, 3, 1, 1, 1, 1, 2,
    2, 2, 2, 2, 2, 1, 2, 1, 2, 2, 1, 1, 3, 2, 3, 1, 0, 3, 0, 3, 1, 0, 3, 0, 3, 3, 0, 3, 0, 0, 3, 0, 3, 2,
    0, 1, 2, 1, 2, 2, 1, 2, 2, 2, 2, 1, 3, 2, 2, 2, 0, 0, 3, 0, 3, 0, 0, 3, 0, 0, 2, 2, 2, 2, 2, 2, 2, 1,
    3, 2, 2, 2, 0, 0, 0, 0, 0, 0, 0, 0, 1, 2, 2, 1, 2, 1, 0, 0, 0, 0, 1, 0, 0, 0, 1, 2, 2, 1, 1, 1, 2, 2,
    0, 1, 0, 1, 0, 0, 0, 1, 2, 1, 1, 0, 1, 2, 1, 2, 2, 1, 1, 0, 0, 0, 0, 0, 3, 2, 0, 3, 1, 1, 2, 2, 2, 2,
    2, 2, 2, 2, 2, 2, 2, 3, 3, 3, 0, 0, 3, 2, 2, 2, 2, 1, 1, 1, 1, 2, 2, 3, 2, 2, 1, 3, 0, 0, 3, 1, 1, 0,
    0, 3, 3, 3, 3, 3, 0, 3, 2, 2, 1, 2, 1, 2, 2, 1, 3, 3, 3, 3, 0, 0, 0, 3, 3, 2, 2, 2, 3, 1, 0, 0, 0, 3,
    3, 2, 2, 3, 2, 3, 1, 0, 1, 0, 0, 1, 1, 1, 1, 2, 2, 2, 1, 1, 1, 0, 0, 3, 0, 3, 0, 0, 1, 2, 1, 0, 0, 0,
    3, 3, 0, 2, 3, 1, 1, 1, 0, 1, 2, 2, 1, 1, 1, 0, 0, 3, 0, 0, 2, 2, 1, 0, 0, 0, 0, 3, 3, 3, 2, 2, 3, 0,
    2, 1, 0, 0, 3, 3, 2, 2, 3, 2, 3, 2, 3, 2, 2, 2, 3, 3, 3, 3, 3, 2, 2, 3, 3, 2, 0, 1, 2, 2, 2, 3, 3, 3]

/-- A closed walk of unit vectors from `(1, 1)` over the floor of the static
layout. -/
def tour : List (Int × Int) := tour_codes.map step_of

/-- The cells of a list marked as the bits of a number, a cell `(x, y)` at bit
`y * WIDTH + x`. -/
def mark_bits : List (Int × Int) → Nat
  | [] => 0
  | q :: rest => mark_bits rest ||| 2 ^ ((q.2 * WIDTH) + q.1).toNat

/-- The floor cells (code 1) of a map marked as the bits of a number, the cell
at index `i` at bit `i`. -/
def floor_bits : List Int → Nat
  | [] => 0
  | c :: rest => 2 * floor_bits rest + (if c = 1 then 1 else 0)

/-- Key codes for the worked examples. -/
def K0 : Keys :=
  { KEY_ARROW_UP := 1006, KEY_ARROW_DOWN := 1008, KEY_ARROW_LEFT := 1005,
    KEY_ARROW_RIGHT := 1007 }

/-- A state with the grabber on the wall cell `(0, 1)` of the static layout;
no run of the game reaches it. -/
def state_edge : State := { map := map, grab_x := 0, grab_y := 1, score := 0, gold_count := 0 }

/-- Generator output as `rnd0`, but with the grabber put on `(3, 1)`. -/
def rnd1 : List Int :=
  [1, 1, 2, 3, 2, 3, 2, 4, 2, 5, 2, 6, 2, 7, 3, 7, 3, 8, 4, 8, 5, 8, 5, 9,
    5, 10, 4, 10, 3, 10, 2, 10, 2, 9, 4, 2]

/-- The state `G.init` leaves on `rnd1`. -/
def state_b : State := ((init PS0 rnd1).getD (⟨[], 0, 0, 0, 0⟩, [])).1

/-- The engine calls `G.init` makes on `rnd1`. -/
def calls_b : List Call := ((init PS0 rnd1).getD (⟨[], 0, 0, 0, 0⟩, [])).2

/-- The state one gold piece short of the win: `G.init` on `rnd0`, then the
first fourteen moves of `moves0`. -/
def state14 : State := (run PS0 state0 (moves0.take 14)).1

/-- The state `G.init` leaves on `rnd0`, with `score` set to `2 ^ 53`. -/
def state_top_score : State := { state0 with score := 9007199254740992 }

/-- The state `G.init` leaves on `rnd0`, with `gold_count` set to `2 ^ 53`. -/
def state_top_count : State := { state0 with gold_count := 9007199254740992 }

/-! ## Array reads and writes -/

theorem cell_eq_some_iff {m : List Int} {loc c : Int} :
    cell m loc = some c ↔ 0 ≤ loc ∧ m[loc.toNat]? = some c := by
  unfold cell
  split <;> simp_all

theorem cell_lt_length {m : List Int} {loc c : Int} (h : cell m loc = some c) :
    0 ≤ loc ∧ loc.toNat < m.length := by
  rw [cell_eq_some_iff] at h
  refine ⟨h.1, ?_⟩
  by_contra hlt
  rw [List.getElem?_eq_none (by omega)] at h
  exact absurd h.2 (by simp)

theorem length_store (m : List Int) (loc c : Int) :
    (store m loc c).length = m.length := by
  unfold store
  split <;> simp

theorem cell_store_self {m : List Int} {loc a : Int} (c : Int)
    (h : cell m loc = some a) : cell (store m loc c) loc = some c := by
  obtain ⟨h0, hlt⟩ := cell_lt_length h
  simp [cell, store, h0, List.getElem?_set, hlt]

theorem cell_store_ne (m : List Int) {loc i : Int} (c : Int) (h : i ≠ loc) :
    cell (store m loc c) i = cell m i := by
  unfold cell store
  by_cases hi : 0 ≤ i <;> by_cases hl : 0 ≤ loc <;> simp [hi, hl]
  have hne : loc.toNat ≠ i.toNat := by omega
  simp [List.getElem?_set, hne]

theorem count_store {m : List Int} {loc a : Int} (c b : Int)
    (h : cell m loc = some a) :
    ((store m loc c).count b : Int) =
      (m.count b : Int) - (if a = b then 1 else 0) + (if c = b then 1 else 0) := by
  obtain ⟨h0, hlt⟩ := cell_lt_length h
  have ha : m[loc.toNat] = a := by
    have h2 := (cell_eq_some_iff.mp h).2
    rw [List.getElem?_eq_getElem hlt] at h2
    exact Option.some.inj h2
  have hpos : (if a = b then 1 else 0) ≤ m.count b := by
    split
    · rename_i hab
      have hmem : b ∈ m := by
        rw [← hab, ← ha]
        exact List.getElem_mem hlt
      exact List.count_pos_iff.mpr hmem
    · exact Nat.zero_le _
  simp only [store, h0, if_true]
  rw [List.count_set _ _ _ _ hlt]
  simp only [ha, beq_iff_eq]
  split <;> split <;> simp_all

/-! ## The three outcomes of `move` -/

theorem not_inBounds_iff (x y : Int) :
    ¬ InBounds x y ↔ (x < 0 ∨ x ≥ WIDTH ∨ y < 0 ∨ y ≥ HEIGHT) := by
  unfold InBounds
  constructor
  · intro hn
    by_contra hc
    exact hn ⟨by omega, by omega, by omega, by omega⟩
  · rintro hc ⟨h1, h2, h3, h4⟩
    omega

theorem move_blocked (PS : Engine) (s : State) (h v : Int)
    (hb : ¬ InBounds (s.grab_x + h) (s.grab_y + v) ∨
      cell s.map (((s.grab_y + v) * WIDTH) + (s.grab_x + h)) = some 0) :
    move PS s h v = (s, []) := by
  unfold move
  by_cases hin : InBounds (s.grab_x + h) (s.grab_y + v)
  · have hc := hb.resolve_left (not_not.mpr hin)
    have hn := (not_iff_not.mpr (not_inBounds_iff _ _)).mp (not_not.mpr hin)
    simp only [hn, if_false, hc, if_true]
  · have hn := (not_inBounds_iff _ _).mp hin
    simp only [hn, if_true]

theorem move_gold (PS : Engine) (s : State) (h v : Int)
    (hin : InBounds (s.grab_x + h) (s.grab_y + v))
    (h2 : cell s.map (((s.grab_y + v) * WIDTH) + (s.grab_x + h)) = some 2) :
    move PS s h v =
      ({ (grab_gold s (((s.grab_y + v) * WIDTH) + (s.grab_x + h))).1 with
          grab_x := s.grab_x + h, grab_y := s.grab_y + v },
        (grab_gold s (((s.grab_y + v) * WIDTH) + (s.grab_x + h))).2 ++
          move_render PS s h v) := by
  unfold move
  have hn := (not_iff_not.mpr (not_inBounds_iff _ _)).mp (not_not.mpr hin)
  simp [hn, h2, move_render]

theorem move_plain (PS : Engine) (s : State) (h v : Int)
    (hin : InBounds (s.grab_x + h) (s.grab_y + v))
    (h0 : cell s.map (((s.grab_y + v) * WIDTH) + (s.grab_x + h)) ≠ some 0)
    (h2 : cell s.map (((s.grab_y + v) * WIDTH) + (s.grab_x + h)) ≠ some 2) :
    move PS s h v =
      ({ s with grab_x := s.grab_x + h, grab_y := s.grab_y + v },
        move_render PS s h v) := by
  unfold move
  have hn := (not_iff_not.mpr (not_inBounds_iff _ _)).mp (not_not.mpr hin)
  simp [hn, h0, h2, move_render]

/-- The outcome of `move` is one of exactly three: blocked, gold, plain. -/
theorem move_cases (PS : Engine) (s : State) (h v : Int) :
    ((¬ InBounds (s.grab_x + h) (s.grab_y + v) ∨
        cell s.map (((s.grab_y + v) * WIDTH) + (s.grab_x + h)) = some 0) ∧
      move PS s h v = (s, [])) ∨
    (InBounds (s.grab_x + h) (s.grab_y + v) ∧
      cell s.map (((s.grab_y + v) * WIDTH) + (s.grab_x + h)) = some 2 ∧
      move PS s h v =
        ({ (grab_gold s (((s.grab_y + v) * WIDTH) + (s.grab_x + h))).1 with
            grab_x := s.grab_x + h, grab_y := s.grab_y + v },
          (grab_gold s (((s.grab_y + v) * WIDTH) + (s.grab_x + h))).2 ++
            move_render PS s h v)) ∨
    (InBounds (s.grab_x + h) (s.grab_y + v) ∧
      cell s.map (((s.grab_y + v) * WIDTH) + (s.grab_x + h)) ≠ some 0 ∧
      cell s.map (((s.grab_y + v) * WIDTH) + (s.grab_x + h)) ≠ some 2 ∧
      move PS s h v =
        ({ s with grab_x := s.grab_x + h, grab_y := s.grab_y + v },
          move_render PS s h v)) := by
  by_cases hin : InBounds (s.grab_x + h) (s.grab_y + v)
  · by_cases h0 : cell s.map (((s.grab_y + v) * WIDTH) + (s.grab_x + h)) = some 0
    · exact Or.inl ⟨Or.inr h0, move_blocked PS s h v (Or.inr h0)⟩
    · by_cases h2 : cell s.map (((s.grab_y + v) * WIDTH) + (s.grab_x + h)) = some 2
      · exact Or.inr (Or.inl ⟨hin, h2, move_gold PS s h v hin h2⟩)
      · exact Or.inr (Or.inr ⟨hin, h0, h2, move_plain PS s h v hin h0 h2⟩)
  · exact Or.inl ⟨Or.inl hin, move_blocked PS s h v (Or.inl hin)⟩

theorem move_render_quiet (PS : Engine) (s : State) (h v : Int) :
    ∀ c ∈ move_render PS s h v, c.isStatusText = false ∧ c.isAudio = false := by
  intro c hc
  simp only [move_render, List.mem_cons, List.mem_singleton, List.not_mem_nil,
    or_false] at hc
  rcases hc with rfl | rfl | rfl | rfl <;> exact ⟨rfl, rfl⟩

/-! ## Placement: `find_floor`, the gold loop, `draw_map`, `init` -/

theorem samplesOK_cons_cons {rx ry : Int} {rest : List Int} :
    SamplesOK (rx :: ry :: rest) ↔
      (1 ≤ rx ∧ rx ≤ WIDTH) ∧ (1 ≤ ry ∧ ry ≤ HEIGHT) ∧ SamplesOK rest := by
  simp [SamplesOK]

/-- What `find_floor` returns, when it returns: the chosen cell read `1`, only
that cell is written, and on generator values within the contract the cell
lies on the grid. -/
theorem find_floor_spec (PS : Engine) (m : List Int) (item code set : Int)
    (rnd : List Int) :
    ∀ p : Placed, find_floor PS m item code set rnd = some p →
      cell m ((p.y * WIDTH) + p.x) = some 1 ∧
      p.map = store m ((p.y * WIDTH) + p.x) item ∧
      p.calls = place_calls PS p.x p.y code set ∧
      (SamplesOK rnd → InBounds p.x p.y ∧ SamplesOK p.rest) := by
  induction rnd using find_floor.induct PS m item code set with
  | case1 rx ry rest xpos ypos loc data hne ih =>
    intro p hp
    rw [find_floor] at hp
    rw [if_pos hne] at hp
    obtain ⟨h1, h2, h3, h4⟩ := ih p hp
    exact ⟨h1, h2, h3, fun hs => h4 (samplesOK_cons_cons.mp hs).2.2⟩
  | case2 rx ry rest xpos ypos loc data hne =>
    intro p hp
    rw [find_floor] at hp
    rw [if_neg hne] at hp
    have hp2 := (Option.some.inj hp).symm
    subst hp2
    refine ⟨not_not.mp hne, rfl, rfl, fun hs => ?_⟩
    obtain ⟨⟨hx1, hx2⟩, ⟨hy1, hy2⟩, hrest⟩ := samplesOK_cons_cons.mp hs
    refine ⟨⟨?_, ?_, ?_, ?_⟩, hrest⟩ <;> simp only [] <;> omega
  | case3 t ht =>
    intro p hp
    rw [find_floor] at hp
    · exact absurd hp (by simp)
    · intro rx ry rest hrest
      exact ht rx ry rest hrest

/-- One placement by `find_floor`, seen on the map alone. -/
theorem find_floor_map (PS : Engine) (m : List Int) (item code set : Int)
    (rnd : List Int) (p : Placed)
    (hp : find_floor PS m item code set rnd = some p) :
    p.map.length = m.length ∧
    (∀ b : Int, (p.map.count b : Int) =
      (m.count b : Int) - (if 1 = b then 1 else 0) + (if item = b then 1 else 0)) ∧
    (∀ i, cell p.map i = cell m i ∨ (cell m i = some 1 ∧ cell p.map i = some item)) := by
  obtain ⟨h1, h2, -, -⟩ := find_floor_spec PS m item code set rnd p hp
  refine ⟨?_, ?_, ?_⟩
  · rw [h2, length_store]
  · intro b
    rw [h2]
    exact count_store item b h1
  · intro i
    by_cases hi : i = (p.y * WIDTH) + p.x
    · right
      rw [hi, h2]
      exact ⟨h1, cell_store_self item h1⟩
    · left
      rw [h2]
      exact cell_store_ne m item hi

/-- The gold loop run `n` times: `n` floor cells have become gold, nothing
else has changed. -/
theorem place_gold_spec (PS : Engine) (n : Nat) :
    ∀ (m rnd m2 : List Int) (calls : List Call) (rest : List Int),
      place_gold PS n m rnd = some (m2, calls, rest) →
        m2.length = m.length ∧
        (m2.count 2 : Int) = (m.count 2 : Int) + n ∧
        (m2.count 3 : Int) = (m.count 3 : Int) ∧
        (∀ i, cell m2 i = cell m i ∨ (cell m i = some 1 ∧ cell m2 i = some 2)) ∧
        (SamplesOK rnd → SamplesOK rest) := by
  induction n with
  | zero =>
    intro m rnd m2 calls rest hpg
    simp only [place_gold, Option.some.injEq, Prod.mk.injEq] at hpg
    obtain ⟨rfl, -, rfl⟩ := hpg
    exact ⟨rfl, by simp, rfl, fun i => Or.inl rfl, id⟩
  | succ n ih =>
    intro m rnd m2 calls rest hpg
    rw [place_gold] at hpg
    cases hff : find_floor PS m 2 COLOR_GOLD 2 rnd with
    | none => simp [hff] at hpg
    | some p =>
      simp only [hff] at hpg
      cases hrec : place_gold PS n p.map p.rest with
      | none => simp [hrec] at hpg
      | some r =>
        obtain ⟨m3, calls3, rest3⟩ := r
        simp only [hrec, Option.some.injEq, Prod.mk.injEq] at hpg
        obtain ⟨rfl, -, rfl⟩ := hpg
        obtain ⟨hl, hc2, hc3, hcell, hs⟩ := ih p.map p.rest m3 calls3 rest3 hrec
        obtain ⟨fl, fc, fcell⟩ := find_floor_map PS m 2 COLOR_GOLD 2 rnd p hff
        obtain ⟨-, -, -, fs⟩ := find_floor_spec PS m 2 COLOR_GOLD 2 rnd p hff
        refine ⟨hl.trans fl, ?_, ?_, ?_, fun h => hs (fs h).2⟩
        · have := fc 2
          simp at this
          rw [hc2, this]
          push_cast
          ring
        · have := fc 3
          simp at this
          rw [hc3, this]
        · intro i
          rcases hcell i with h1 | ⟨h1, h2⟩
          · rcases fcell i with g1 | ⟨g1, g2⟩
            · exact Or.inl (h1.trans g1)
            · exact Or.inr ⟨g1, h1.trans g2⟩
          · rcases fcell i with g1 | ⟨g1, g2⟩
            · exact Or.inr ⟨g1 ▸ h1, h2⟩
            · rw [g2] at h1
              exact absurd h1 (by simp)

theorem map_length : map.length = 400 := by rfl

theorem map_count_two : map.count 2 = 0 := by decide

theorem map_count_three : map.count 3 = 0 := by decide

/-- What `init` leaves, when it returns. -/
theorem init_spec (PS : Engine) (rnd : List Int) (s : State) (calls : List Call)
    (hi : init PS rnd = some (s, calls)) :
    s.map.length = 400 ∧
    s.map.count 2 = 15 ∧
    s.map.count 3 = 1 ∧
    (∀ i, cell s.map i = cell map i ∨
      (cell map i = some 1 ∧ (cell s.map i = some 2 ∨ cell s.map i = some 3))) ∧
    cell s.map ((s.grab_y * WIDTH) + s.grab_x) = some 3 ∧
    s.score = 0 ∧ s.gold_count = 0 ∧
    (SamplesOK rnd → InBounds s.grab_x s.grab_y) := by
  unfold init at hi
  cases hd : draw_map PS map rnd with
  | none => simp [hd] at hi
  | some d =>
    obtain ⟨m, gx, gy, dc⟩ := d
    simp only [hd, Option.some.injEq, Prod.mk.injEq] at hi
    obtain ⟨rfl, -⟩ := hi
    unfold draw_map at hd
    cases hg : place_gold PS GOLD_MAX.toNat map rnd with
    | none => simp [hg] at hd
    | some g =>
      obtain ⟨m1, gc, rnd1⟩ := g
      simp only [hg] at hd
      cases hf : find_floor PS m1 3 COLOR_GRAB 3 rnd1 with
      | none => simp [hf] at hd
      | some pos =>
        simp only [hf, Option.some.injEq, Prod.mk.injEq] at hd
        obtain ⟨rfl, rfl, rfl, -⟩ := hd
        obtain ⟨gl, g2, g3, gcell, gs⟩ := place_gold_spec PS _ map rnd m1 gc rnd1 hg
        obtain ⟨fl, fc, fcell⟩ := find_floor_map PS m1 3 COLOR_GRAB 3 rnd1 pos hf
        obtain ⟨f1, f2, -, fs⟩ := find_floor_spec PS m1 3 COLOR_GRAB 3 rnd1 pos hf
        refine ⟨?_, ?_, ?_, ?_, ?_, rfl, rfl, fun h => (fs (gs h)).1⟩
        · simp only []
          rw [fl, gl, map_length]
        · have := fc 2
          simp at this
          simp only []
          rw [map_count_two] at g2
          have hG : ((GOLD_MAX.toNat : Nat) : Int) = 15 := by decide
          omega
        · have := fc 3
          simp at this
          simp only []
          rw [map_count_three] at g3
          omega
        · intro i
          simp only []
          rcases fcell i with h1 | ⟨h1, h2⟩
          · rcases gcell i with k1 | ⟨k1, k2⟩
            · exact Or.inl (h1.trans k1)
            · exact Or.inr ⟨k1, Or.inl (h1.trans k2)⟩
          · rcases gcell i with k1 | ⟨k1, k2⟩
            · exact Or.inr ⟨k1 ▸ h1, Or.inr h2⟩
            · rw [k2] at h1
              exact absurd h1 (by simp)
        · simp only []
          rw [f2]
          exact cell_store_self 3 f1

/-! ## The invariant -/

theorem cell_defined {m : List Int} {x y : Int} (hl : m.length = 400)
    (hin : InBounds x y) : ∃ c, cell m ((y * WIDTH) + x) = some c := by
  obtain ⟨h1, h2, h3, h4⟩ := hin
  simp only [WIDTH, HEIGHT] at h2 h4 ⊢
  have h0 : 0 ≤ y * 20 + x := by omega
  have hlt : (y * 20 + x).toNat < m.length := by omega
  exact ⟨m[(y * 20 + x).toNat], by simp [cell, h0, List.getElem?_eq_getElem hlt]⟩

/-! ## Counter arithmetic -/

theorem ulp_from_small (fuel a : Nat) (h : a < 2 ^ 53) : ulp_from fuel a 1 = 1 := by
  cases fuel with
  | zero => rfl
  | succ n =>
    show (if a / 1 < 2 ^ 53 then 1 else ulp_from n a (2 * 1)) = 1
    rw [Nat.div_one, if_pos h]

theorem round_double_small (z : Int) (h : z.natAbs < 2 ^ 53) : round_double z = z := by
  unfold round_double
  simp only [ulp_from_small _ _ h, Nat.div_one, Nat.mod_one, Nat.mul_zero, Nat.mul_one]
  have hno : ¬ ((0 : Nat) > 1 ∨ ((0 : Nat) = 1 ∧ z.natAbs % 2 = 1)) := by omega
  rw [if_neg hno]
  split
  · omega
  · omega

theorem round_double_top : round_double 9007199254740992 = 9007199254740992 := by
  decide

theorem round_double_bottom : round_double (-9007199254740992) = -9007199254740992 := by
  decide

theorem round_double_above_top : round_double 9007199254740993 = 9007199254740992 := by
  decide

/-- Up to `2 ^ 53` in size the script's sum is the exact sum. -/
theorem js_add_exact (a b : Int) (h1 : -9007199254740992 ≤ a + b)
    (h2 : a + b ≤ 9007199254740992) : js_add a b = a + b := by
  unfold js_add
  by_cases ht : a + b = 9007199254740992
  · rw [ht]
    exact round_double_top
  · by_cases hb : a + b = -9007199254740992
    · rw [hb]
      exact round_double_bottom
    · exact round_double_small _ (by omega)

/-- At `2 ^ 53` adding 1 no longer changes a double. -/
theorem js_add_top : js_add 9007199254740992 1 = 9007199254740992 := by
  decide

/-- Adding 1 to a counter in `(-2 ^ 53, 2 ^ 53]` does not lower it and keeps
it in that range. -/
theorem js_add_one_step (a : Int) (h1 : -9007199254740992 < a)
    (h2 : a ≤ 9007199254740992) :
    a ≤ js_add a 1 ∧ js_add a 1 ≤ 9007199254740992 := by
  by_cases ht : a = 9007199254740992
  · rw [ht, js_add_top]
    omega
  · rw [js_add_exact a 1 (by omega) (by omega)]
    omega

theorem grab_gold_fst (s : State) (loc : Int) :
    (grab_gold s loc).1 =
      { s with map := store s.map loc 1, score := js_add s.score GOLD_VALUE,
               gold_count := js_add s.gold_count 1 } := rfl

/-- On counters below `2 ^ 53` in size the gold branch adds exactly. -/
theorem grab_gold_safe (s : State) (loc : Int) (hs : SafeCounters s) :
    grab_gold s loc =
      ({ s with map := store s.map loc 1, score := s.score + GOLD_VALUE,
                gold_count := s.gold_count + 1 },
        if s.gold_count + 1 ≥ GOLD_MAX then
          [Call.statusText ("You win with " ++ toString (s.score + GOLD_VALUE) ++ " fish!"),
            Call.audioPlay "fx_tada"]
        else
          [Call.statusText ("Score = " ++ toString (s.score + GOLD_VALUE)),
            Call.audioPlay "fx_coin7"]) := by
  obtain ⟨⟨a1, a2⟩, ⟨b1, b2⟩⟩ := hs
  have e1 : js_add s.score GOLD_VALUE = s.score + GOLD_VALUE :=
    js_add_exact _ _ (by simp only [GOLD_VALUE]; omega) (by simp only [GOLD_VALUE]; omega)
  have e2 : js_add s.gold_count 1 = s.gold_count + 1 :=
    js_add_exact _ _ (by omega) (by omega)
  unfold grab_gold
  simp only [e1, e2]

theorem safe_of_inv {s : State} (hs : Inv s) : SafeCounters s := by
  have hsum := hs.gold_sum
  have hsc := hs.score_eq
  have hlen := hs.length_eq
  have hle : s.map.count 2 ≤ s.map.length := List.count_le_length 2 s.map
  simp only [GOLD_MAX] at hsum
  simp only [GOLD_VALUE, one_mul] at hsc
  refine ⟨⟨?_, ?_⟩, ⟨?_, ?_⟩⟩ <;> omega

theorem js_add_score (s : State) (hs : SafeCounters s) :
    js_add s.score GOLD_VALUE = s.score + GOLD_VALUE := by
  obtain ⟨⟨a1, a2⟩, -⟩ := hs
  exact js_add_exact _ _ (by simp only [GOLD_VALUE]; omega) (by simp only [GOLD_VALUE]; omega)

theorem js_add_gold_count (s : State) (hs : SafeCounters s) :
    js_add s.gold_count 1 = s.gold_count + 1 := by
  obtain ⟨-, ⟨b1, b2⟩⟩ := hs
  exact js_add_exact _ _ (by omega) (by omega)

theorem inv_init (PS : Engine) (rnd : List Int) (s : State) (calls : List Call)
    (hs : SamplesOK rnd) (hi : init PS rnd = some (s, calls)) : Inv s := by
  obtain ⟨hl, h2, h3, hcell, hg, hsc, hgc, hin⟩ := init_spec PS rnd s calls hi
  refine ⟨hl, hin hs, ⟨3, hg, by decide⟩, ?_, ?_, ?_⟩
  · rw [hgc, h2]
    decide
  · rw [hsc, hgc]
    decide
  · intro i
    rcases hcell i with h | ⟨h1, h | h⟩
    · rw [h]
    · rw [h1, h]
      simp
    · rw [h1, h]
      simp

theorem inv_move (PS : Engine) (s : State) (h v : Int) (hs : Inv s) :
    Inv (move PS s h v).1 := by
  rcases move_cases PS s h v with ⟨-, hm⟩ | ⟨hin, h2, hm⟩ | ⟨hin, h0, h2, hm⟩
  · rw [hm]
    exact hs
  · have hsafe := safe_of_inv hs
    rw [hm, grab_gold_fst, js_add_score s hsafe, js_add_gold_count s hsafe]
    refine ⟨?_, hin, ⟨1, cell_store_self 1 h2, by decide⟩, ?_, ?_, ?_⟩
    · simp only [length_store]
      exact hs.length_eq
    · have hc := count_store 1 2 h2
      have hg := hs.gold_sum
      simp at hc
      simp only []
      omega
    · have := hs.score_eq
      simp only [GOLD_VALUE] at this ⊢
      omega
    · intro i
      simp only []
      by_cases hi : i = ((s.grab_y + v) * WIDTH) + (s.grab_x + h)
      · rw [hi, cell_store_self 1 h2, ← hs.walls, h2]
        simp
      · rw [cell_store_ne s.map 1 hi]
        exact hs.walls i
  · rw [hm]
    obtain ⟨c, hc⟩ := cell_defined hs.length_eq hin
    refine ⟨hs.length_eq, hin, ⟨c, hc, ?_⟩, hs.gold_sum, hs.score_eq, hs.walls⟩
    rintro rfl
    exact h0 hc

theorem inv_of_reachable (PS : Engine) (s : State) (hr : Reachable PS s) :
    Inv s := by
  induction hr with
  | init hs hi => exact inv_init PS _ _ _ hs hi
  | move h v _ ih => exact inv_move PS _ h v ih

theorem reachable_run (PS : Engine) (ms : List (Int × Int)) :
    ∀ s : State, Reachable PS s → Reachable PS (run PS s ms).1 := by
  induction ms with
  | nil => intro s hr; exact hr
  | cons hv rest ih =>
    intro s hr
    exact ih _ (Reachable.move hv.1 hv.2 hr)

theorem inv_run (PS : Engine) (ms : List (Int × Int)) :
    ∀ s : State, Inv s → Inv (run PS s ms).1 := by
  induction ms with
  | nil => intro s hr; exact hr
  | cons hv rest ih =>
    intro s hr
    exact ih _ (inv_move PS s hv.1 hv.2 hr)

theorem samplesOK_rnd0 : SamplesOK rnd0 := by
  simp [SamplesOK, rnd0, WIDTH, HEIGHT]

theorem init_rnd0 : init PS0 rnd0 = some (state0, calls0) := by rfl

theorem reachable_state0 : Reachable PS0 state0 :=
  Reachable.init samplesOK_rnd0 init_rnd0

/-! ## Blocked moves -/

/-- C1: a move whose candidate cell is off the grid or holds a wall (code 0)
returns the state unchanged (map, position, score and gold count) and makes no
engine call at all; issuing the same move again gives the same state and again
no call. -/
theorem C1_blocked_move_is_noop (PS : Engine) (s : State) (h v : Int)
    (hb : ¬ InBounds (s.grab_x + h) (s.grab_y + v) ∨
      cell s.map (((s.grab_y + v) * WIDTH) + (s.grab_x + h)) = some 0) :
    move PS s h v = (s, []) ∧
    move PS (move PS s h v).1 h v = (s, []) := by
  have h1 := move_blocked PS s h v hb
  refine ⟨h1, ?_⟩
  rw [h1]
  exact h1

theorem C1_blocked_move_is_noop_witness :
    (¬ InBounds (state0.grab_x + (-1)) (state0.grab_y + 0) ∨
      cell state0.map (((state0.grab_y + 0) * WIDTH) + (state0.grab_x + (-1))) = some 0) ∧
    (move PS0 state0 (-1) 0 = (state0, []) ∧
      move PS0 (move PS0 state0 (-1) 0).1 (-1) 0 = (state0, [])) :=
  ⟨Or.inr (by rfl), C1_blocked_move_is_noop PS0 state0 (-1) 0 (Or.inr (by rfl))⟩

/-! ## Collecting a gold piece -/

/-- C2, amended: for every state whose score and gold_count are below 2^53 in
size, a move whose candidate cell is on the grid and holds gold (code 2)
turns that cell into floor (code 1) and leaves every other cell as it was,
adds GOLD_VALUE = 1 to the score and 1 to the gold count, and puts the grabber
on the candidate; when the new gold count is below GOLD_MAX the engine calls
are the status text "Score = " followed by the new score, the cue fx_coin7,
and the four render calls, in this order. -/
theorem C2_gold_move (PS : Engine) (s : State) (h v : Int)
    (hsafe : SafeCounters s)
    (hin : InBounds (s.grab_x + h) (s.grab_y + v))
    (h2 : cell s.map (((s.grab_y + v) * WIDTH) + (s.grab_x + h)) = some 2) :
    cell (move PS s h v).1.map (((s.grab_y + v) * WIDTH) + (s.grab_x + h)) = some 1 ∧
    (∀ i, i ≠ ((s.grab_y + v) * WIDTH) + (s.grab_x + h) →
      cell (move PS s h v).1.map i = cell s.map i) ∧
    (move PS s h v).1.map.length = s.map.length ∧
    (move PS s h v).1.score = s.score + GOLD_VALUE ∧
    GOLD_VALUE = 1 ∧
    (move PS s h v).1.gold_count = s.gold_count + 1 ∧
    (move PS s h v).1.grab_x = s.grab_x + h ∧
    (move PS s h v).1.grab_y = s.grab_y + v ∧
    ((move PS s h v).1.gold_count < GOLD_MAX →
      (move PS s h v).2 =
        [Call.statusText ("Score = " ++ toString (move PS s h v).1.score),
          Call.audioPlay "fx_coin7"] ++ move_render PS s h v) := by
  rw [move_gold PS s h v hin h2, grab_gold_safe s _ hsafe]
  refine ⟨cell_store_self 1 h2, fun i hi => cell_store_ne s.map 1 hi,
    length_store _ _ _, rfl, rfl, rfl, rfl, rfl, ?_⟩
  intro hlt
  have hlt2 : ¬ (s.gold_count + 1 ≥ GOLD_MAX) := not_le.mpr hlt
  simp only [hlt2, if_false]

theorem C2_gold_move_witness :
    SafeCounters state0 ∧
    InBounds (state0.grab_x + 0) (state0.grab_y + 1) ∧
    cell state0.map (((state0.grab_y + 1) * WIDTH) + (state0.grab_x + 0)) = some 2 ∧
    (move PS0 state0 0 1).1.score = state0.score + GOLD_VALUE ∧
    (move PS0 state0 0 1).2 =
      [Call.statusText "Score = 1", Call.audioPlay "fx_coin7"] ++
        move_render PS0 state0 0 1 :=
  ⟨by decide, by decide, by rfl,
    (C2_gold_move PS0 state0 0 1 (by decide) (by decide) (by rfl)).2.2.2.1,
    (C2_gold_move PS0 state0 0 1 (by decide) (by decide) (by rfl)).2.2.2.2.2.2.2.2
      (by decide)⟩

/-- C2 as stated fails at score = 2^53: the candidate cell holds gold and the
move collects it, yet `score += GOLD_VALUE` rounds back to 9007199254740992,
so the score has not increased by GOLD_VALUE, and the status text shows the
unchanged score. -/
theorem C2_score_stuck_at_2_53 :
    state_top_score.score = 9007199254740992 ∧
    InBounds (state_top_score.grab_x + 0) (state_top_score.grab_y + 1) ∧
    cell state_top_score.map
      (((state_top_score.grab_y + 1) * WIDTH) + (state_top_score.grab_x + 0)) = some 2 ∧
    (move PS0 state_top_score 0 1).1.gold_count = state_top_score.gold_count + 1 ∧
    (move PS0 state_top_score 0 1).1.score = state_top_score.score ∧
    ¬ ((move PS0 state_top_score 0 1).1.score = state_top_score.score + GOLD_VALUE) ∧
    (move PS0 state_top_score 0 1).2 =
      [Call.statusText "Score = 9007199254740992", Call.audioPlay "fx_coin7"] ++
        move_render PS0 state_top_score 0 1 := by
  decide

/-! ## Plain moves -/

/-- C3: a move whose candidate cell is on the grid and holds neither a wall
(code 0) nor gold (code 2), so floor (code 1) or the start marker (code 3),
puts the grabber on the candidate and leaves map, score and gold count as
they were; its engine calls are the four render calls, none of them a status
text or a sound. -/
theorem C3_plain_move (PS : Engine) (s : State) (h v : Int)
    (hin : InBounds (s.grab_x + h) (s.grab_y + v))
    (h0 : cell s.map (((s.grab_y + v) * WIDTH) + (s.grab_x + h)) ≠ some 0)
    (h2 : cell s.map (((s.grab_y + v) * WIDTH) + (s.grab_x + h)) ≠ some 2) :
    (move PS s h v).1.grab_x = s.grab_x + h ∧
    (move PS s h v).1.grab_y = s.grab_y + v ∧
    (move PS s h v).1.map = s.map ∧
    (move PS s h v).1.score = s.score ∧
    (move PS s h v).1.gold_count = s.gold_count ∧
    (move PS s h v).2 = move_render PS s h v ∧
    (∀ c ∈ (move PS s h v).2, c.isStatusText = false ∧ c.isAudio = false) := by
  rw [move_plain PS s h v hin h0 h2]
  exact ⟨rfl, rfl, rfl, rfl, rfl, rfl, move_render_quiet PS s h v⟩

theorem C3_plain_move_witness :
    InBounds (state1.grab_x + 0) (state1.grab_y + (-1)) ∧
    cell state1.map (((state1.grab_y + (-1)) * WIDTH) + (state1.grab_x + 0)) = some 3 ∧
    (move PS0 state1 0 (-1)).1.grab_x = 1 ∧
    (move PS0 state1 0 (-1)).1.grab_y = 1 ∧
    (move PS0 state1 0 (-1)).1.map = state1.map ∧
    (move PS0 state1 0 (-1)).1.score = 1 ∧
    (move PS0 state1 0 (-1)).1.gold_count = 1 ∧
    (move PS0 state1 0 (-1)).2 = move_render PS0 state1 0 (-1) ∧
    (∀ c ∈ (move PS0 state1 0 (-1)).2, c.isStatusText = false ∧ c.isAudio = false) :=
  ⟨by decide, by rfl,
    C3_plain_move PS0 state1 0 (-1) (by decide) (by decide) (by decide)⟩

/-! ## The grabber stays on the grid and off the walls -/

/-- C4: in every state reachable from a state produced by init through any
finite sequence of move(h, v) calls, h and v arbitrary integers, the grabber
position satisfies 0 <= grab_x < WIDTH and 0 <= grab_y < HEIGHT, and the map
cell at that position holds a code other than 0 (wall). -/
theorem C4_grabber_on_grid_off_wall (PS : Engine) (s : State)
    (hr : Reachable PS s) :
    (0 ≤ s.grab_x ∧ s.grab_x < WIDTH ∧ 0 ≤ s.grab_y ∧ s.grab_y < HEIGHT) ∧
    (∃ c, cell s.map ((s.grab_y * WIDTH) + s.grab_x) = some c ∧ c ≠ 0) ∧
    (∀ ms : List (Int × Int),
      InBounds (run PS s ms).1.grab_x (run PS s ms).1.grab_y ∧
      ∃ c, cell (run PS s ms).1.map
        (((run PS s ms).1.grab_y * WIDTH) + (run PS s ms).1.grab_x) = some c ∧ c ≠ 0) := by
  have hi := inv_of_reachable PS s hr
  refine ⟨hi.in_bounds, hi.not_wall, fun ms => ?_⟩
  have hi2 := inv_run PS ms s hi
  exact ⟨hi2.in_bounds, hi2.not_wall⟩

theorem C4_grabber_on_grid_off_wall_witness :
    Reachable PS0 state1 ∧
    (0 ≤ state1.grab_x ∧ state1.grab_x < WIDTH ∧
      0 ≤ state1.grab_y ∧ state1.grab_y < HEIGHT) :=
  ⟨Reachable.move 0 1 (Reachable.init samplesOK_rnd0 init_rnd0),
    (C4_grabber_on_grid_off_wall PS0 state1
      (Reachable.move 0 1 (Reachable.init samplesOK_rnd0 init_rnd0))).1⟩

/-! ## Counters: monotone, and tied to each other -/

theorem move_counters (PS : Engine) (s : State) (h v : Int)
    (hsafe : SafeCounters s) :
    ((move PS s h v).1.score = s.score + GOLD_VALUE ∧
      (move PS s h v).1.gold_count = s.gold_count + 1) ∨
    ((move PS s h v).1.score = s.score ∧
      (move PS s h v).1.gold_count = s.gold_count) := by
  rcases move_cases PS s h v with ⟨-, hm⟩ | ⟨-, -, hm⟩ | ⟨-, -, -, hm⟩
  · rw [hm]
    exact Or.inr ⟨rfl, rfl⟩
  · rw [hm, grab_gold_safe s _ hsafe]
    exact Or.inl ⟨rfl, rfl⟩
  · rw [hm]
    exact Or.inr ⟨rfl, rfl⟩

/-- One move keeps counters that lie in `(-2 ^ 53, 2 ^ 53]` in that range and
does not lower them. -/
theorem move_counters_range (PS : Engine) (s : State) (h v : Int)
    (h1 : -9007199254740992 < s.score ∧ s.score ≤ 9007199254740992)
    (h2 : -9007199254740992 < s.gold_count ∧ s.gold_count ≤ 9007199254740992) :
    (s.score ≤ (move PS s h v).1.score ∧
      (move PS s h v).1.score ≤ 9007199254740992) ∧
    (s.gold_count ≤ (move PS s h v).1.gold_count ∧
      (move PS s h v).1.gold_count ≤ 9007199254740992) := by
  rcases move_cases PS s h v with ⟨-, hm⟩ | ⟨-, -, hm⟩ | ⟨-, -, -, hm⟩
  · rw [hm]
    exact ⟨⟨le_refl _, h1.2⟩, ⟨le_refl _, h2.2⟩⟩
  · rw [hm, grab_gold_fst]
    exact ⟨js_add_one_step s.score h1.1 h1.2, js_add_one_step s.gold_count h2.1 h2.2⟩
  · rw [hm]
    exact ⟨⟨le_refl _, h1.2⟩, ⟨le_refl _, h2.2⟩⟩

theorem run_counters (PS : Engine) (ms : List (Int × Int)) :
    ∀ s : State,
      (-9007199254740992 < s.score ∧ s.score ≤ 9007199254740992) →
      (-9007199254740992 < s.gold_count ∧ s.gold_count ≤ 9007199254740992) →
      s.score ≤ (run PS s ms).1.score ∧
        s.gold_count ≤ (run PS s ms).1.gold_count := by
  induction ms with
  | nil => intro s _ _; exact ⟨le_refl _, le_refl _⟩
  | cons hv rest ih =>
    intro s h1 h2
    obtain ⟨⟨a1, a2⟩, ⟨b1, b2⟩⟩ := move_counters_range PS s hv.1 hv.2 h1 h2
    obtain ⟨c1, c2⟩ := ih (move PS s hv.1 hv.2).1 ⟨by omega, a2⟩ ⟨by omega, b2⟩
    simp only [run]
    constructor <;> omega

theorem move_gold_count_le (PS : Engine) (s : State) (h v : Int)
    (hsafe : SafeCounters s) :
    s.gold_count ≤ (move PS s h v).1.gold_count := by
  rcases move_counters PS s h v hsafe with ⟨-, b⟩ | ⟨-, b⟩ <;> omega

/-- C7, amended: for every state whose score and gold_count are below 2^53 in
size and all integers h, v, one move(h, v) never lowers score or gold_count;
score grows by exactly GOLD_VALUE if and only if gold_count grows by exactly
1, and otherwise both keep their value; hence both are non-decreasing along
every sequence of moves from such a state. -/
theorem C7_counters_monotone (PS : Engine) (s : State) (h v : Int)
    (hsafe : SafeCounters s) :
    s.score ≤ (move PS s h v).1.score ∧
    s.gold_count ≤ (move PS s h v).1.gold_count ∧
    ((move PS s h v).1.score = s.score + GOLD_VALUE ↔
      (move PS s h v).1.gold_count = s.gold_count + 1) ∧
    (((move PS s h v).1.score = s.score + GOLD_VALUE ∧
        (move PS s h v).1.gold_count = s.gold_count + 1) ∨
      ((move PS s h v).1.score = s.score ∧
        (move PS s h v).1.gold_count = s.gold_count)) ∧
    (∀ ms : List (Int × Int),
      s.score ≤ (run PS s ms).1.score ∧ s.gold_count ≤ (run PS s ms).1.gold_count) := by
  have hG : GOLD_VALUE = 1 := rfl
  have hc := move_counters PS s h v hsafe
  obtain ⟨⟨a1, a2⟩, ⟨b1, b2⟩⟩ := hsafe
  refine ⟨?_, ?_, ?_, hc, fun ms =>
    run_counters PS ms s ⟨a1, by omega⟩ ⟨b1, by omega⟩⟩
  · rcases hc with ⟨a, b⟩ | ⟨a, b⟩ <;> omega
  · rcases hc with ⟨a, b⟩ | ⟨a, b⟩ <;> omega
  · rcases hc with ⟨a, b⟩ | ⟨a, b⟩ <;> constructor <;> intro <;> omega

theorem C7_counters_monotone_witness :
    SafeCounters state0 ∧
    state0.score ≤ (move PS0 state0 0 1).1.score ∧
    ((move PS0 state0 0 1).1.score = state0.score + GOLD_VALUE ↔
      (move PS0 state0 0 1).1.gold_count = state0.gold_count + 1) :=
  ⟨by decide, (C7_counters_monotone PS0 state0 0 1 (by decide)).1,
    (C7_counters_monotone PS0 state0 0 1 (by decide)).2.2.1⟩

/-- C7 as stated fails at gold_count = 2^53: the collecting move adds
GOLD_VALUE to score, 0 + 1 = 1, while gold_count + 1 rounds back to 2^53, so
score has grown by exactly GOLD_VALUE and gold_count has not grown by 1. -/
theorem C7_count_stuck_at_2_53 :
    state_top_count.gold_count = 9007199254740992 ∧
    InBounds (state_top_count.grab_x + 0) (state_top_count.grab_y + 1) ∧
    cell state_top_count.map
      (((state_top_count.grab_y + 1) * WIDTH) + (state_top_count.grab_x + 0)) = some 2 ∧
    (move PS0 state_top_count 0 1).1.score = state_top_count.score + GOLD_VALUE ∧
    (move PS0 state_top_count 0 1).1.gold_count = state_top_count.gold_count ∧
    ¬ ((move PS0 state_top_count 0 1).1.score = state_top_count.score + GOLD_VALUE ↔
      (move PS0 state_top_count 0 1).1.gold_count = state_top_count.gold_count + 1) := by
  decide

/-! ## Gold bookkeeping -/

/-- C8: in every state reachable from init, gold_count plus the number of map
cells holding code 2 equals GOLD_MAX = 15; hence 0 <= gold_count <= GOLD_MAX. -/
theorem C8_gold_bookkeeping (PS : Engine) (s : State) (hr : Reachable PS s) :
    s.gold_count + (s.map.count 2 : Int) = GOLD_MAX ∧
    GOLD_MAX = 15 ∧
    0 ≤ s.gold_count ∧ s.gold_count ≤ GOLD_MAX := by
  have hi := inv_of_reachable PS s hr
  have h0 : 0 ≤ s.gold_count := by
    clear hi
    induction hr with
    | init hs hinit =>
      rw [(init_spec PS _ _ _ hinit).2.2.2.2.2.2.1]
    | move h v hr2 ih =>
      exact le_trans ih
        (move_gold_count_le PS _ h v (safe_of_inv (inv_of_reachable PS _ hr2)))
  have hg := hi.gold_sum
  refine ⟨hg, rfl, h0, ?_⟩
  omega

theorem C8_gold_bookkeeping_witness :
    Reachable PS0 state1 ∧
    state1.gold_count + (state1.map.count 2 : Int) = GOLD_MAX ∧
    state1.gold_count = 1 :=
  ⟨Reachable.move 0 1 (Reachable.init samplesOK_rnd0 init_rnd0),
    (C8_gold_bookkeeping PS0 state1
      (Reachable.move 0 1 (Reachable.init samplesOK_rnd0 init_rnd0))).1,
    by rfl⟩

/-! ## Winning -/

theorem count_two_pos {m : List Int} {loc : Int} (h : cell m loc = some 2) :
    1 ≤ m.count 2 := by
  obtain ⟨-, hlt⟩ := cell_lt_length h
  have h2 := (cell_eq_some_iff.mp h).2
  rw [List.getElem?_eq_getElem hlt] at h2
  have hmem : (2 : Int) ∈ m := by
    rw [← Option.some.inj h2]
    exact List.getElem_mem hlt
  exact List.count_pos_iff.mpr hmem

/-- The win branch is taken exactly by a gold move whose incremented count
passes the test `gold_count >= GOLD_MAX`. -/
theorem took_win_iff (PS : Engine) (s : State) (h v : Int)
    (hsafe : SafeCounters s) :
    took_win (move PS s h v).2 ↔
      (InBounds (s.grab_x + h) (s.grab_y + v) ∧
        cell s.map (((s.grab_y + v) * WIDTH) + (s.grab_x + h)) = some 2 ∧
        s.gold_count + 1 ≥ GOLD_MAX) := by
  rcases move_cases PS s h v with ⟨hb, hm⟩ | ⟨hin, h2, hm⟩ | ⟨hin, h0, h2, hm⟩
  · rw [hm]
    simp only [took_win, List.not_mem_nil, false_iff]
    rintro ⟨hin, h2, -⟩
    rcases hb with hb | hb
    · exact hb hin
    · rw [hb] at h2
      exact absurd h2 (by simp)
  · rw [hm, grab_gold_safe s _ hsafe]
    by_cases hge : s.gold_count + 1 ≥ GOLD_MAX
    · simp [took_win, hge, hin, h2]
    · simp [took_win, hge, move_render]
  · rw [hm]
    simp [took_win, move_render, h2]

theorem win_status (PS : Engine) (s : State) (h v : Int)
    (hsafe : SafeCounters s) (hw : took_win (move PS s h v).2) :
    Call.statusText ("You win with " ++ toString (move PS s h v).1.score ++ " fish!") ∈
      (move PS s h v).2 := by
  obtain ⟨hin, h2, hge⟩ := (took_win_iff PS s h v hsafe).mp hw
  rw [move_gold PS s h v hin h2, grab_gold_safe s _ hsafe]
  simp [hge]

/-- How many more times the win branch can still be taken from `s`. -/
theorem wins_move (PS : Engine) (s : State) (h v : Int) (hs : Inv s) :
    (move PS s h v).2.count (Call.audioPlay "fx_tada") +
        (if (move PS s h v).1.gold_count < GOLD_MAX then 1 else 0) ≤
      (if s.gold_count < GOLD_MAX then 1 else 0) := by
  rcases move_cases PS s h v with ⟨-, hm⟩ | ⟨hin, h2, hm⟩ | ⟨hin, h0, h2, hm⟩
  · rw [hm]
    simp
  · have hpos := count_two_pos h2
    have hsum := hs.gold_sum
    have hlt : s.gold_count < GOLD_MAX := by omega
    rw [hm, grab_gold_safe s _ (safe_of_inv hs)]
    by_cases hge : s.gold_count + 1 ≥ GOLD_MAX
    · have hnlt : ¬ (s.gold_count + 1 < GOLD_MAX) := not_lt.mpr hge
      simp [hge, hnlt, hlt, move_render]
    · simp [hge, hlt, move_render]
      split <;> omega
  · rw [hm]
    simp [move_render]

theorem wins_run (PS : Engine) (ms : List (Int × Int)) :
    ∀ s : State, Inv s →
      (run PS s ms).2.count (Call.audioPlay "fx_tada") +
          (if (run PS s ms).1.gold_count < GOLD_MAX then 1 else 0) ≤
        (if s.gold_count < GOLD_MAX then 1 else 0) := by
  induction ms with
  | nil => intro s _; simp [run]
  | cons hv rest ih =>
    intro s hs
    have h1 := wins_move PS s hv.1 hv.2 hs
    have h2 := ih _ (inv_move PS s hv.1 hv.2 hs)
    simp only [run, List.count_append]
    omega

/-- C5: in every state reachable from init, a move takes the win branch
(it plays fx_tada and shows the victory text) if and only if it collects a gold
piece and thereby makes gold_count exactly GOLD_MAX; the test
gold_count >= GOLD_MAX agrees with gold_count == GOLD_MAX, both on the state
and on the incremented count of a collecting move; along any sequence of moves
the win branch is taken at most once; and once gold_count is GOLD_MAX it stays
GOLD_MAX and the win branch is not taken again. -/
theorem C5_win_exactly_at_gold_max (PS : Engine) (s : State)
    (hr : Reachable PS s) :
    (∀ h v : Int, took_win (move PS s h v).2 ↔
      (InBounds (s.grab_x + h) (s.grab_y + v) ∧
        cell s.map (((s.grab_y + v) * WIDTH) + (s.grab_x + h)) = some 2 ∧
        (move PS s h v).1.gold_count = s.gold_count + 1 ∧
        (move PS s h v).1.gold_count = GOLD_MAX)) ∧
    (∀ h v : Int, took_win (move PS s h v).2 →
      Call.statusText ("You win with " ++ toString (move PS s h v).1.score ++ " fish!") ∈
        (move PS s h v).2) ∧
    (s.gold_count ≥ GOLD_MAX ↔ s.gold_count = GOLD_MAX) ∧
    (∀ h v : Int, InBounds (s.grab_x + h) (s.grab_y + v) →
      cell s.map (((s.grab_y + v) * WIDTH) + (s.grab_x + h)) = some 2 →
      (s.gold_count + 1 ≥ GOLD_MAX ↔ s.gold_count + 1 = GOLD_MAX)) ∧
    (∀ ms : List (Int × Int),
      (run PS s ms).2.count (Call.audioPlay "fx_tada") ≤ 1) ∧
    (s.gold_count = GOLD_MAX → ∀ ms : List (Int × Int),
      (run PS s ms).1.gold_count = GOLD_MAX ∧ ¬ took_win (run PS s ms).2) := by
  have hi := inv_of_reachable PS s hr
  have hsum := hi.gold_sum
  have hsafe := safe_of_inv hi
  refine ⟨fun h v => ?_, fun h v hw => win_status PS s h v hsafe hw, ?_, ?_, ?_, ?_⟩
  · rw [took_win_iff PS s h v hsafe]
    constructor
    · rintro ⟨hin, h2, hge⟩
      have hpos := count_two_pos h2
      refine ⟨hin, h2, ?_, ?_⟩
      · rw [move_gold PS s h v hin h2, grab_gold_safe s _ hsafe]
      · rw [move_gold PS s h v hin h2, grab_gold_safe s _ hsafe]
        show s.gold_count + 1 = GOLD_MAX
        omega
    · rintro ⟨hin, h2, h3, h4⟩
      exact ⟨hin, h2, by omega⟩
  · constructor
    · intro hge
      omega
    · intro heq
      omega
  · intro h v _ h2
    have hpos := count_two_pos h2
    constructor
    · intro hge
      omega
    · intro heq
      omega
  · intro ms
    have := wins_run PS ms s hi
    split at this <;> split at this <;> omega
  · intro heq ms
    have hw := wins_run PS ms s hi
    have hmono := (run_counters PS ms s
      ⟨hsafe.1.1, le_of_lt hsafe.1.2⟩ ⟨hsafe.2.1, le_of_lt hsafe.2.2⟩).2
    have hi2 := inv_run PS ms s hi
    have hsum2 := hi2.gold_sum
    refine ⟨by omega, ?_⟩
    have hn : ¬ (s.gold_count < GOLD_MAX) := by omega
    rw [if_neg hn] at hw
    have hc : (run PS s ms).2.count (Call.audioPlay "fx_tada") = 0 := by omega
    unfold took_win
    exact List.count_eq_zero.mp hc

theorem C5_win_exactly_at_gold_max_witness :
    Reachable PS0 (run PS0 state0 (moves0.take 14)).1 ∧
    took_win (move PS0 (run PS0 state0 (moves0.take 14)).1 0 (-1)).2 ∧
    (move PS0 (run PS0 state0 (moves0.take 14)).1 0 (-1)).1.gold_count = GOLD_MAX ∧
    (run PS0 (run PS0 state0 (moves0.take 14)).1 [(0, -1), (0, 1), (0, -1)]).2.count
      (Call.audioPlay "fx_tada") ≤ 1 :=
  ⟨reachable_run PS0 _ state0 reachable_state0,
    by decide,
    (((C5_win_exactly_at_gold_max PS0 _
      (reachable_run PS0 _ state0 reachable_state0)).1 0 (-1)).mp (by decide)).2.2.2,
    (C5_win_exactly_at_gold_max PS0 _
      (reachable_run PS0 _ state0 reachable_state0)).2.2.2.2.1 _⟩

/-! ## After the win -/

/-- Once no gold is left, a sequence of moves changes the position only and
stays silent. -/
theorem run_no_gold (PS : Engine) (ms : List (Int × Int)) :
    ∀ s : State, s.map.count 2 = 0 →
      (run PS s ms).1.map = s.map ∧
      (run PS s ms).1.score = s.score ∧
      (run PS s ms).1.gold_count = s.gold_count ∧
      (∀ c ∈ (run PS s ms).2, c.isStatusText = false ∧ c.isAudio = false) := by
  induction ms with
  | nil =>
    intro s _
    simp [run]
  | cons hv rest ih =>
    intro s hs
    have hstep : (move PS s hv.1 hv.2).1.map = s.map ∧
        (move PS s hv.1 hv.2).1.score = s.score ∧
        (move PS s hv.1 hv.2).1.gold_count = s.gold_count ∧
        (∀ c ∈ (move PS s hv.1 hv.2).2, c.isStatusText = false ∧ c.isAudio = false) := by
      rcases move_cases PS s hv.1 hv.2 with ⟨-, hm⟩ | ⟨-, h2, -⟩ | ⟨-, -, -, hm⟩
      · rw [hm]
        simp
      · have := count_two_pos h2
        omega
      · rw [hm]
        exact ⟨rfl, rfl, rfl, move_render_quiet PS s hv.1 hv.2⟩
    obtain ⟨a1, a2, a3, a4⟩ := hstep
    obtain ⟨b1, b2, b3, b4⟩ := ih (move PS s hv.1 hv.2).1 (by rw [a1]; exact hs)
    simp only [run]
    refine ⟨b1.trans a1, b2.trans a2, b3.trans a3, ?_⟩
    intro c hc
    rcases List.mem_append.mp hc with hc | hc
    · exact a4 c hc
    · exact b4 c hc

/-- C6: in every state reachable from init in which gold_count = GOLD_MAX,
every further move(h, v), and every sequence of further moves, leaves score,
gold_count and the map as they are and issues no status text and no sound;
only grab_x and grab_y may change. -/
theorem C6_won_is_quiet (PS : Engine) (s : State) (hr : Reachable PS s)
    (hw : s.gold_count = GOLD_MAX) :
    (∀ h v : Int,
      (move PS s h v).1.score = s.score ∧
      (move PS s h v).1.gold_count = s.gold_count ∧
      (move PS s h v).1.map = s.map ∧
      (∀ c ∈ (move PS s h v).2, c.isStatusText = false ∧ c.isAudio = false)) ∧
    (∀ ms : List (Int × Int),
      (run PS s ms).1.score = s.score ∧
      (run PS s ms).1.gold_count = s.gold_count ∧
      (run PS s ms).1.map = s.map ∧
      (∀ c ∈ (run PS s ms).2, c.isStatusText = false ∧ c.isAudio = false)) := by
  have hi := inv_of_reachable PS s hr
  have hsum := hi.gold_sum
  have h0 : s.map.count 2 = 0 := by omega
  have hrun : ∀ ms : List (Int × Int),
      (run PS s ms).1.score = s.score ∧
      (run PS s ms).1.gold_count = s.gold_count ∧
      (run PS s ms).1.map = s.map ∧
      (∀ c ∈ (run PS s ms).2, c.isStatusText = false ∧ c.isAudio = false) := by
    intro ms
    obtain ⟨a, b, c, d⟩ := run_no_gold PS ms s h0
    exact ⟨b, c, a, d⟩
  refine ⟨fun h v => ?_, hrun⟩
  have := hrun [(h, v)]
  simpa [run] using this

theorem C6_won_is_quiet_witness :
    Reachable PS0 state15 ∧ state15.gold_count = GOLD_MAX ∧
    (move PS0 state15 0 1).1.score = state15.score ∧
    (move PS0 state15 0 1).1.gold_count = state15.gold_count ∧
    (move PS0 state15 0 1).1.map = state15.map ∧
    (∀ c ∈ (move PS0 state15 0 1).2, c.isStatusText = false ∧ c.isAudio = false) :=
  ⟨reachable_run PS0 moves0 state0 reachable_state0, by rfl,
    (C6_won_is_quiet PS0 state15
      (reachable_run PS0 moves0 state0 reachable_state0) (by rfl)).1 0 1⟩

/-! ## Placement on floor cells only -/

/-- The loop of `find_floor` exits as soon as a round draws a floor cell:
after any rounds `pre`, a round `(rx, ry)` whose cell reads `1` makes the call
return. -/
theorem find_floor_returns (PS : Engine) (m : List Int) (item code set : Int)
    (pre : List (Int × Int)) (rx ry : Int) (rest : List Int)
    (hhit : cell m (((ry - 1) * WIDTH) + (rx - 1)) = some 1) :
    ∃ p, find_floor PS m item code set
      (pre.flatMap (fun q => [q.1, q.2]) ++ rx :: ry :: rest) = some p := by
  induction pre with
  | nil =>
    simp only [List.flatMap_nil, List.nil_append]
    rw [find_floor]
    simp [hhit]
  | cons q pre ih =>
    simp only [List.flatMap_cons, List.cons_append, List.nil_append]
    rw [find_floor]
    by_cases hq : cell m (((q.2 - 1) * WIDTH) + (q.1 - 1)) = some 1
    · simp [hq]
    · simp only [ne_eq, hq, not_false_eq_true, if_true]
      exact ih

/-- C9: for every map and every sequence of generator values within the
contract of PS.random on which find_floor(item, code, set) returns, the
returned (x, y) satisfies 0 <= x < WIDTH and 0 <= y < HEIGHT, the cell at
index y*WIDTH + x held code 1 before the call and holds item after it, every
other cell is unchanged; so a wall (0) or a placed gold piece (2) is never
selected. -/
theorem C9_find_floor_selects_floor (PS : Engine) (m : List Int)
    (item code set : Int) (rnd : List Int) (p : Placed)
    (hs : SamplesOK rnd)
    (hf : find_floor PS m item code set rnd = some p) :
    (0 ≤ p.x ∧ p.x < WIDTH ∧ 0 ≤ p.y ∧ p.y < HEIGHT) ∧
    cell m ((p.y * WIDTH) + p.x) = some 1 ∧
    cell p.map ((p.y * WIDTH) + p.x) = some item ∧
    (∀ i, i ≠ (p.y * WIDTH) + p.x → cell p.map i = cell m i) ∧
    p.map.length = m.length ∧
    cell m ((p.y * WIDTH) + p.x) ≠ some 0 ∧
    cell m ((p.y * WIDTH) + p.x) ≠ some 2 := by
  obtain ⟨h1, h2, -, h4⟩ := find_floor_spec PS m item code set rnd p hf
  refine ⟨(h4 hs).1, h1, ?_, ?_, ?_, ?_, ?_⟩
  · rw [h2]
    exact cell_store_self item h1
  · intro i hi
    rw [h2]
    exact cell_store_ne m item hi
  · rw [h2]
    exact length_store _ _ _
  · rw [h1]
    simp
  · rw [h1]
    simp

theorem C9_find_floor_selects_floor_witness :
    SamplesOK [1, 1, 2, 3, 2, 2] ∧
    find_floor PS0 map 2 COLOR_GOLD 2 [1, 1, 2, 3, 2, 2] =
      some ⟨store map 41 2, 1, 2,
        [Call.glyph 1 2 COLOR_GOLD, Call.glyphColor 1 2 3], [2, 2]⟩ ∧
    cell map 41 = some 1 ∧ cell (store map 41 2) 41 = some 2 :=
  ⟨by simp [SamplesOK, WIDTH, HEIGHT], by rfl,
    (C9_find_floor_selects_floor PS0 map 2 COLOR_GOLD 2 [1, 1, 2, 3, 2, 2]
      ⟨store map 41 2, 1, 2, [Call.glyph 1 2 COLOR_GOLD, Call.glyphColor 1 2 3], [2, 2]⟩
      (by simp [SamplesOK, WIDTH, HEIGHT]) (by rfl)).2.1,
    (C9_find_floor_selects_floor PS0 map 2 COLOR_GOLD 2 [1, 1, 2, 3, 2, 2]
      ⟨store map 41 2, 1, 2, [Call.glyph 1 2 COLOR_GOLD, Call.glyphColor 1 2 3], [2, 2]⟩
      (by simp [SamplesOK, WIDTH, HEIGHT]) (by rfl)).2.2.1⟩

/-! ## The state `init` leaves -/

theorem code_cells_nat (b : Int) (m : List Int) :
    ∃ L : List Nat, L.Nodup ∧ L.length = m.count b ∧ ∀ n, n ∈ L ↔ m[n]? = some b := by
  induction m with
  | nil => exact ⟨[], List.nodup_nil, by simp, by simp⟩
  | cons a t ih =>
    obtain ⟨L, hnd, hlen, hmem⟩ := ih
    have hmap : (L.map Nat.succ).Nodup := hnd.map Nat.succ_injective
    have hmem2 : ∀ n, n ∈ L.map Nat.succ ↔ ∃ k, n = k + 1 ∧ t[k]? = some b := by
      intro n
      simp only [List.mem_map, hmem]
      constructor
      · rintro ⟨k, hk, rfl⟩
        exact ⟨k, rfl, hk⟩
      · rintro ⟨k, rfl, hk⟩
        exact ⟨k, hk, rfl⟩
    by_cases hab : a = b
    · refine ⟨0 :: L.map Nat.succ, ?_, ?_, ?_⟩
      · refine List.nodup_cons.mpr ⟨?_, hmap⟩
        simp
      · simp [hlen, hab]
      · intro n
        cases n with
        | zero => simp [hab]
        | succ k =>
          simp only [List.mem_cons, hmem2, List.getElem?_cons_succ]
          constructor
          · rintro (h | ⟨j, hj, hb⟩)
            · omega
            · have : k = j := by omega
              rw [this]
              exact hb
          · intro h
            exact Or.inr ⟨k, rfl, h⟩
    · refine ⟨L.map Nat.succ, hmap, ?_, ?_⟩
      · simp [hlen, List.count_cons, hab]
      · intro n
        cases n with
        | zero =>
          simp only [hmem2, List.getElem?_cons_zero, Option.some.injEq, hab, iff_false]
          rintro ⟨k, hk, -⟩
          omega
        | succ k =>
          simp only [hmem2, List.getElem?_cons_succ]
          constructor
          · rintro ⟨j, hj, hb⟩
            have : k = j := by omega
            rw [this]
            exact hb
          · intro h
            exact ⟨k, rfl, h⟩

/-- The cells of `m` holding code `b`, as a duplicate-free list of indices
whose length is the number of such cells. -/
theorem code_cells (b : Int) (m : List Int) :
    ∃ L : List Int, L.Nodup ∧ L.length = m.count b ∧ ∀ i, i ∈ L ↔ cell m i = some b := by
  obtain ⟨L, hnd, hlen, hmem⟩ := code_cells_nat b m
  refine ⟨L.map (fun n : Nat => (n : Int)), hnd.map (fun a c h => by simpa using h),
    by simpa using hlen, ?_⟩
  intro i
  rw [cell_eq_some_iff]
  simp only [List.mem_map, hmem]
  constructor
  · rintro ⟨n, hn, rfl⟩
    exact ⟨by omega, by simpa using hn⟩
  · rintro ⟨h0, hi⟩
    exact ⟨i.toNat, hi, by omega⟩

/-- C10: for every run of init on the static map that returns (on generator
values within the contract of PS.random), the resulting map has exactly
GOLD_MAX = 15 cells with code 2 and exactly one cell with code 3; these 16
cells are pairwise distinct and all were floor (code 1) in the static layout;
every other cell is as in the static layout; (grab_x, grab_y) lies on the
grid and is the code-3 cell, so the grabber does not start on gold; and
score = 0 and gold_count = 0. -/
theorem C10_init_state (PS : Engine) (rnd : List Int) (s : State)
    (calls : List Call) (hs : SamplesOK rnd)
    (hi : init PS rnd = some (s, calls)) :
    (s.map.count 2 : Int) = GOLD_MAX ∧ GOLD_MAX = 15 ∧
    s.map.count 3 = 1 ∧
    s.map.length = 400 ∧
    (∃ gold : List Int,
      (((s.grab_y * WIDTH) + s.grab_x) :: gold).Nodup ∧
      gold.length = 15 ∧
      (∀ i, i ∈ gold ↔ cell s.map i = some 2) ∧
      (∀ i, i = (s.grab_y * WIDTH) + s.grab_x ↔ cell s.map i = some 3) ∧
      (∀ i ∈ ((s.grab_y * WIDTH) + s.grab_x) :: gold, cell map i = some 1)) ∧
    (∀ i, cell s.map i ≠ some 2 → cell s.map i ≠ some 3 → cell s.map i = cell map i) ∧
    InBounds s.grab_x s.grab_y ∧
    cell s.map ((s.grab_y * WIDTH) + s.grab_x) = some 3 ∧
    s.score = 0 ∧ s.gold_count = 0 := by
  obtain ⟨hl, h2, h3, hcell, hg, hsc, hgc, hin⟩ := init_spec PS rnd s calls hi
  have hfloor : ∀ i, cell s.map i = some 2 ∨ cell s.map i = some 3 →
      cell map i = some 1 := by
    intro i hi23
    rcases hcell i with h | ⟨h, -⟩
    · exfalso
      rw [h] at hi23
      have hw : cell map i = some 2 ∨ cell map i = some 3 := hi23
      rcases hw with hw | hw
      · have := count_two_pos hw
        rw [map_count_two] at this
        omega
      · obtain ⟨L, -, hlen, hmem⟩ := code_cells 3 map
        rw [map_count_three] at hlen
        have hiL : i ∈ L := (hmem i).mpr hw
        rw [List.length_eq_zero.mp hlen] at hiL
        exact absurd hiL (List.not_mem_nil i)
    · exact h
  obtain ⟨gold, gnd, glen, gmem⟩ := code_cells 2 s.map
  obtain ⟨L3, nd3, len3, mem3⟩ := code_cells 3 s.map
  have hthree : ∀ i, i = (s.grab_y * WIDTH) + s.grab_x ↔ cell s.map i = some 3 := by
    intro i
    constructor
    · rintro rfl
      exact hg
    · intro h
      rw [h3] at len3
      obtain ⟨a, ha⟩ := List.length_eq_one.mp len3
      have h1 : i ∈ L3 := (mem3 i).mpr h
      have h2 : (s.grab_y * WIDTH) + s.grab_x ∈ L3 := (mem3 _).mpr hg
      rw [ha, List.mem_singleton] at h1 h2
      rw [h1, h2]
  refine ⟨by rw [h2]; rfl, rfl, h3, hl, ⟨gold, ?_, by rw [glen, h2], gmem, hthree, ?_⟩,
    ?_, hin hs, hg, hsc, hgc⟩
  · refine List.nodup_cons.mpr ⟨?_, gnd⟩
    intro hmem
    have := (gmem _).mp hmem
    rw [hg] at this
    exact absurd this (by simp)
  · intro i hi2
    rcases List.mem_cons.mp hi2 with h | h
    · exact hfloor i (Or.inr ((hthree i).mp h))
    · exact hfloor i (Or.inl ((gmem i).mp h))
  · intro i n2 n3
    rcases hcell i with h | ⟨-, h | h⟩
    · exact h
    · exact absurd h n2
    · exact absurd h n3

theorem C10_init_state_witness :
    SamplesOK rnd0 ∧ init PS0 rnd0 = some (state0, calls0) ∧
    (state0.map.count 2 : Int) = GOLD_MAX ∧ state0.map.count 3 = 1 ∧
    state0.grab_x = 1 ∧ state0.grab_y = 1 ∧
    cell state0.map ((state0.grab_y * WIDTH) + state0.grab_x) = some 3 ∧
    state0.score = 0 ∧ state0.gold_count = 0 :=
  ⟨by simp [SamplesOK, rnd0, WIDTH, HEIGHT], by rfl,
    (C10_init_state PS0 rnd0 state0 calls0
      (by simp [SamplesOK, rnd0, WIDTH, HEIGHT]) (by rfl)).1,
    (C10_init_state PS0 rnd0 state0 calls0
      (by simp [SamplesOK, rnd0, WIDTH, HEIGHT]) (by rfl)).2.2.1,
    by rfl, by rfl,
    (C10_init_state PS0 rnd0 state0 calls0
      (by simp [SamplesOK, rnd0, WIDTH, HEIGHT]) (by rfl)).2.2.2.2.2.2.2.1,
    (C10_init_state PS0 rnd0 state0 calls0
      (by simp [SamplesOK, rnd0, WIDTH, HEIGHT]) (by rfl)).2.2.2.2.2.2.2.2⟩

/-! ## Walls never move -/

/-- One `move` changes at most one cell, and only from gold (2) to floor (1). -/
theorem move_cell_change (PS : Engine) (s : State) (h v : Int) (i : Int) :
    cell (move PS s h v).1.map i = cell s.map i ∨
      (cell s.map i = some 2 ∧ cell (move PS s h v).1.map i = some 1) := by
  rcases move_cases PS s h v with ⟨-, hm⟩ | ⟨-, h2, hm⟩ | ⟨-, -, -, hm⟩
  · rw [hm]
    exact Or.inl rfl
  · rw [hm, grab_gold_fst]
    by_cases hi : i = ((s.grab_y + v) * WIDTH) + (s.grab_x + h)
    · right
      rw [hi]
      exact ⟨h2, cell_store_self 1 h2⟩
    · left
      exact cell_store_ne s.map 1 hi
  · rw [hm]
    exact Or.inl rfl

/-- C11: walls never move. In every state reachable from the static map
through init and any sequence of moves, and for every index i, map[i] = 0 if
and only if the static layout has 0 at i. The only changes of a cell are
floor 1 -> 2 or 3 during placement (find_floor, init) and gold 2 -> 1 on
collection (move). -/
theorem C11_walls_never_move (PS : Engine) (s : State) (hr : Reachable PS s) :
    (∀ i, cell s.map i = some 0 ↔ cell map i = some 0) ∧
    (∀ h v i : Int, cell (move PS s h v).1.map i = cell s.map i ∨
      (cell s.map i = some 2 ∧ cell (move PS s h v).1.map i = some 1)) ∧
    (∀ (rnd : List Int) (s0 : State) (calls : List Call),
      init PS rnd = some (s0, calls) →
      ∀ i, cell s0.map i = cell map i ∨
        (cell map i = some 1 ∧ (cell s0.map i = some 2 ∨ cell s0.map i = some 3))) ∧
    (∀ (m : List Int) (item code set : Int) (rnd : List Int) (p : Placed),
      find_floor PS m item code set rnd = some p →
      ∀ i, cell p.map i = cell m i ∨ (cell m i = some 1 ∧ cell p.map i = some item)) := by
  refine ⟨(inv_of_reachable PS s hr).walls, fun h v i => move_cell_change PS s h v i,
    ?_, ?_⟩
  · intro rnd s0 calls hi
    exact (init_spec PS rnd s0 calls hi).2.2.2.1
  · intro m item code set rnd p hp
    exact (find_floor_map PS m item code set rnd p hp).2.2

theorem C11_walls_never_move_witness :
    Reachable PS0 state15 ∧
    (∀ i, cell state15.map i = some 0 ↔ cell map i = some 0) :=
  ⟨reachable_run PS0 moves0 state0 (Reachable.init samplesOK_rnd0 init_rnd0),
    (C11_walls_never_move PS0 state15
      (reachable_run PS0 moves0 state0 (Reachable.init samplesOK_rnd0 init_rnd0))).1⟩

/-! ## The last gold piece -/

/-- C12: in every state reachable from init, the move that collects the last
remaining gold piece sets the status text to exactly "You win with 15 fish!"
and plays fx_tada, not fx_coin7; the score is 15 at that moment. -/
theorem C12_last_gold_wins (PS : Engine) (s : State) (h v : Int)
    (hr : Reachable PS s)
    (hin : InBounds (s.grab_x + h) (s.grab_y + v))
    (h2 : cell s.map (((s.grab_y + v) * WIDTH) + (s.grab_x + h)) = some 2)
    (hlast : s.map.count 2 = 1) :
    (move PS s h v).2 =
      [Call.statusText "You win with 15 fish!", Call.audioPlay "fx_tada"] ++
        move_render PS s h v ∧
    Call.audioPlay "fx_coin7" ∉ (move PS s h v).2 ∧
    (move PS s h v).1.score = 15 ∧
    (move PS s h v).1.gold_count = GOLD_MAX := by
  have hi := inv_of_reachable PS s hr
  have hsum := hi.gold_sum
  have hsc := hi.score_eq
  have hG : GOLD_MAX = 15 := rfl
  have hV : GOLD_VALUE = 1 := rfl
  have hg : s.gold_count = 14 := by omega
  have hs : s.score = 14 := by
    simp only [GOLD_VALUE, one_mul] at hsc
    omega
  have hstr : "You win with " ++ toString ((14 : Int) + 1) ++ " fish!" =
      "You win with 15 fish!" := by decide
  have hcalls : (move PS s h v).2 =
      [Call.statusText "You win with 15 fish!", Call.audioPlay "fx_tada"] ++
        move_render PS s h v := by
    rw [move_gold PS s h v hin h2, grab_gold_safe s _ (safe_of_inv hi)]
    simp only [hg, hs, hV, hG]
    rw [if_pos (by decide), hstr]
  refine ⟨hcalls, ?_, ?_, ?_⟩
  · rw [hcalls]
    simp [move_render]
  · rw [move_gold PS s h v hin h2, grab_gold_safe s _ (safe_of_inv hi)]
    show s.score + GOLD_VALUE = 15
    omega
  · rw [move_gold PS s h v hin h2, grab_gold_safe s _ (safe_of_inv hi)]
    show s.gold_count + 1 = GOLD_MAX
    omega

theorem C12_last_gold_wins_witness :
    Reachable PS0 state14 ∧
    InBounds (state14.grab_x + 0) (state14.grab_y + (-1)) ∧
    cell state14.map (((state14.grab_y + (-1)) * WIDTH) + (state14.grab_x + 0)) = some 2 ∧
    state14.map.count 2 = 1 ∧
    (move PS0 state14 0 (-1)).2 =
      [Call.statusText "You win with 15 fish!", Call.audioPlay "fx_tada"] ++
        move_render PS0 state14 0 (-1) :=
  ⟨reachable_run PS0 (moves0.take 14) state0 (Reachable.init samplesOK_rnd0 init_rnd0),
    by decide, by decide, by decide,
    (C12_last_gold_wins PS0 state14 0 (-1)
      (reachable_run PS0 (moves0.take 14) state0 (Reachable.init samplesOK_rnd0 init_rnd0))
      (by decide) (by decide) (by decide)).1⟩

/-! ## Score and gold count -/

theorem gold_count_nonneg (PS : Engine) (s : State) (hr : Reachable PS s) :
    0 ≤ s.gold_count := by
  induction hr with
  | init hs hinit => rw [(init_spec PS _ _ _ hinit).2.2.2.2.2.2.1]
  | move h v hr2 ih =>
    exact le_trans ih
      (move_gold_count_le PS _ h v (safe_of_inv (inv_of_reachable PS _ hr2)))

/-- C19: in every state reachable from init, score = GOLD_VALUE * gold_count;
GOLD_VALUE being 1, the score equals the number of gold pieces collected and
is never negative. -/
theorem C19_score_is_gold_count (PS : Engine) (s : State) (hr : Reachable PS s) :
    s.score = GOLD_VALUE * s.gold_count ∧
    GOLD_VALUE = 1 ∧
    s.score = s.gold_count ∧
    0 ≤ s.score := by
  have hsc := (inv_of_reachable PS s hr).score_eq
  have h0 := gold_count_nonneg PS s hr
  have hV : GOLD_VALUE = 1 := rfl
  have hsc2 : s.score = s.gold_count := by
    simp only [GOLD_VALUE, one_mul] at hsc
    exact hsc
  refine ⟨hsc, hV, hsc2, ?_⟩
  omega

theorem C19_score_is_gold_count_witness :
    Reachable PS0 state14 ∧ state14.score = GOLD_VALUE * state14.gold_count ∧
    state14.score = 14 :=
  ⟨reachable_run PS0 (moves0.take 14) state0 (Reachable.init samplesOK_rnd0 init_rnd0),
    (C19_score_is_gold_count PS0 state14
      (reachable_run PS0 (moves0.take 14) state0
        (Reachable.init samplesOK_rnd0 init_rnd0))).1,
    by decide⟩

/-! ## The layout is a 20 x 20 grid with a wall border -/

theorem cell_nat (m : List Int) (x y : Nat) :
    cell m (((y : Int) * WIDTH) + (x : Int)) = m[y * 20 + x]? := by
  have h0 : (0 : Int) ≤ (y : Int) * 20 + (x : Int) := by omega
  have ht : ((y : Int) * 20 + (x : Int)).toNat = y * 20 + x := by omega
  simp [cell, WIDTH, h0, ht]

theorem inBounds_nat {x y : Int} (hin : InBounds x y) :
    ∃ a b : Nat, a < 20 ∧ b < 20 ∧ x = (a : Int) ∧ y = (b : Int) := by
  obtain ⟨h1, h2, h3, h4⟩ := hin
  simp only [WIDTH, HEIGHT] at h2 h4
  exact ⟨x.toNat, y.toNat, by omega, by omega, by omega, by omega⟩

theorem layout_all_codes : ∀ c ∈ map, c = 0 ∨ c = 1 := by
  decide

theorem layout_border_enum : ∀ p ∈ map.enum,
    (p.1 % 20 = 0 ∨ p.1 % 20 = 19 ∨ p.1 / 20 = 0 ∨ p.1 / 20 = 19) → p.2 = 0 := by
  decide

theorem layout_codes : ∀ x < 20, ∀ y < 20,
    map[y * 20 + x]? = some 0 ∨ map[y * 20 + x]? = some 1 := by
  intro x hx y hy
  have hlt : y * 20 + x < map.length := by
    rw [map_length]
    omega
  rw [List.getElem?_eq_getElem hlt]
  rcases layout_all_codes _ (List.getElem_mem hlt) with h | h
  · exact Or.inl (congrArg some h)
  · exact Or.inr (congrArg some h)

theorem layout_border : ∀ x < 20, ∀ y < 20,
    (x = 0 ∨ x = 19 ∨ y = 0 ∨ y = 19) → map[y * 20 + x]? = some 0 := by
  intro x hx y hy hb
  have hlt : y * 20 + x < map.length := by
    rw [map_length]
    omega
  have hget : map[y * 20 + x]? = some map[y * 20 + x] := List.getElem?_eq_getElem hlt
  have hmem : (y * 20 + x, map[y * 20 + x]) ∈ map.enum :=
    List.mk_mem_enum_iff_getElem?.mpr hget
  have h0 := layout_border_enum _ hmem (by
    show (y * 20 + x) % 20 = 0 ∨ (y * 20 + x) % 20 = 19 ∨
      (y * 20 + x) / 20 = 0 ∨ (y * 20 + x) / 20 = 19
    omega)
  rw [hget]
  exact congrArg some h0

/-- C14: the static map is a 20 x 20 grid. It has exactly WIDTH * HEIGHT = 400
entries, each 0 (wall) or 1 (floor); for every (x, y) with 0 <= x < WIDTH and
0 <= y < HEIGHT the index y*WIDTH + x lies in [0, 400) and the read there is a
number, on the static map and on the map of every reachable state; the
coordinates find_floor draws on generator values within the contract are such
(x, y). -/
theorem C14_layout_is_grid :
    map.length = 400 ∧ WIDTH * HEIGHT = 400 ∧
    (∀ c ∈ map, c = 0 ∨ c = 1) ∧
    (∀ x y : Int, InBounds x y →
      0 ≤ (y * WIDTH) + x ∧ (y * WIDTH) + x < 400 ∧
      (cell map ((y * WIDTH) + x) = some 0 ∨ cell map ((y * WIDTH) + x) = some 1)) ∧
    (∀ (PS : Engine) (s : State), Reachable PS s → ∀ x y : Int, InBounds x y →
      s.map.length = 400 ∧ ∃ c, cell s.map ((y * WIDTH) + x) = some c) ∧
    (∀ rx ry : Int, 1 ≤ rx ∧ rx ≤ WIDTH → 1 ≤ ry ∧ ry ≤ HEIGHT →
      InBounds (rx - 1) (ry - 1)) := by
  refine ⟨map_length, by decide, by decide, ?_, ?_, ?_⟩
  · intro x y hin
    obtain ⟨a, b, ha, hb, rfl, rfl⟩ := inBounds_nat hin
    refine ⟨?_, ?_, ?_⟩
    · simp only [WIDTH]
      omega
    · simp only [WIDTH]
      omega
    · rw [cell_nat]
      exact layout_codes a ha b hb
  · intro PS s hr x y hin
    have hl := (inv_of_reachable PS s hr).length_eq
    exact ⟨hl, cell_defined hl hin⟩
  · rintro rx ry ⟨h1, h2⟩ ⟨h3, h4⟩
    refine ⟨?_, ?_, ?_, ?_⟩ <;> omega

/-- A unit-vector `move` returns without any engine call exactly when it is
blocked. -/
theorem move_silent_iff (PS : Engine) (s : State) (h v : Int) :
    (move PS s h v).2 = [] ↔
      (¬ InBounds (s.grab_x + h) (s.grab_y + v) ∨
        cell s.map (((s.grab_y + v) * WIDTH) + (s.grab_x + h)) = some 0) := by
  rcases move_cases PS s h v with ⟨hb, hm⟩ | ⟨hin, h2, hm⟩ | ⟨hin, h0, h2, hm⟩
  · rw [hm]
    simp [hb]
  · rw [hm]
    constructor
    · intro hnil
      have hr := (List.append_eq_nil.mp hnil).2
      simp [move_render] at hr
    · rintro (hc | hc)
      · exact absurd hin hc
      · rw [h2] at hc
        exact absurd hc (by simp)
  · rw [hm]
    constructor
    · intro hnil
      simp [move_render] at hnil
    · rintro (hc | hc)
      · exact absurd hin hc
      · exact absurd hc h0

/-- C18: every cell on the border of the static layout (x = 0, x = WIDTH-1,
y = 0 or y = HEIGHT-1) is a wall; so in every state reachable from init
1 <= grab_x <= WIDTH-2 and 1 <= grab_y <= HEIGHT-2, and for a unit-vector
move the candidate is on the grid, the off-grid test of move is false, and
the move is rejected (returns with no engine call) exactly when the wall
test finds 0. -/
theorem C18_border_is_wall (PS : Engine) (s : State) (hr : Reachable PS s) :
    (∀ x y : Int, InBounds x y →
      (x = 0 ∨ x = WIDTH - 1 ∨ y = 0 ∨ y = HEIGHT - 1) →
      cell map ((y * WIDTH) + x) = some 0) ∧
    (1 ≤ s.grab_x ∧ s.grab_x ≤ WIDTH - 2 ∧ 1 ≤ s.grab_y ∧ s.grab_y ≤ HEIGHT - 2) ∧
    (∀ hv ∈ unit_vectors,
      InBounds (s.grab_x + hv.1) (s.grab_y + hv.2) ∧
      ¬ (s.grab_x + hv.1 < 0 ∨ s.grab_x + hv.1 ≥ WIDTH ∨
          s.grab_y + hv.2 < 0 ∨ s.grab_y + hv.2 ≥ HEIGHT) ∧
      ((move PS s hv.1 hv.2).2 = [] ↔
        cell s.map (((s.grab_y + hv.2) * WIDTH) + (s.grab_x + hv.1)) = some 0)) := by
  have hborder : ∀ x y : Int, InBounds x y →
      (x = 0 ∨ x = WIDTH - 1 ∨ y = 0 ∨ y = HEIGHT - 1) →
      cell map ((y * WIDTH) + x) = some 0 := by
    intro x y hin hb
    obtain ⟨a, b, ha, hb2, rfl, rfl⟩ := inBounds_nat hin
    rw [cell_nat]
    refine layout_border a ha b hb2 ?_
    simp only [WIDTH, HEIGHT] at hb
    omega
  have hi := inv_of_reachable PS s hr
  have hpos : 1 ≤ s.grab_x ∧ s.grab_x ≤ WIDTH - 2 ∧ 1 ≤ s.grab_y ∧
      s.grab_y ≤ HEIGHT - 2 := by
    obtain ⟨c, hc, hc0⟩ := hi.not_wall
    have hin := hi.in_bounds
    by_contra hcon
    have hb : s.grab_x = 0 ∨ s.grab_x = WIDTH - 1 ∨ s.grab_y = 0 ∨
        s.grab_y = HEIGHT - 1 := by
      obtain ⟨h1, h2, h3, h4⟩ := hin
      simp only [WIDTH, HEIGHT] at h2 h4 hcon ⊢
      omega
    have hw := (hi.walls _).mpr (hborder _ _ hin hb)
    rw [hc] at hw
    exact hc0 (Option.some.inj hw)
  refine ⟨hborder, hpos, ?_⟩
  intro hv hmem
  have hin : InBounds (s.grab_x + hv.1) (s.grab_y + hv.2) := by
    obtain ⟨h1, h2, h3, h4⟩ := hpos
    simp only [unit_vectors, List.mem_cons, List.mem_singleton, List.not_mem_nil,
      or_false] at hmem
    simp only [WIDTH, HEIGHT] at h2 h4
    rcases hmem with rfl | rfl | rfl | rfl <;>
      refine ⟨?_, ?_, ?_, ?_⟩ <;> simp only [WIDTH, HEIGHT] <;> omega
  refine ⟨hin, (not_iff_not.mpr (not_inBounds_iff _ _)).mp (not_not.mpr hin), ?_⟩
  rw [move_silent_iff]
  constructor
  · rintro (h | h)
    · exact absurd hin h
    · exact h
  · intro h
    exact Or.inr h

theorem C18_border_is_wall_witness :
    Reachable PS0 state0 ∧
    (1 ≤ state0.grab_x ∧ state0.grab_x ≤ WIDTH - 2 ∧ 1 ≤ state0.grab_y ∧
      state0.grab_y ≤ HEIGHT - 2) ∧
    (move PS0 state0 (-1) 0).2 = [] ∧
    cell state0.map (((state0.grab_y + 0) * WIDTH) + (state0.grab_x + (-1))) = some 0 :=
  ⟨Reachable.init samplesOK_rnd0 init_rnd0,
    (C18_border_is_wall PS0 state0 (Reachable.init samplesOK_rnd0 init_rnd0)).2.1,
    by decide, by decide⟩

/-! ## Keys -/

theorem key_move_unit (K : Keys) (key : Int) (hv : Int × Int)
    (hk : key_move K key = some hv) : hv ∈ unit_vectors := by
  unfold key_move at hk
  split at hk
  · rw [← Option.some.inj hk]
    simp [unit_vectors]
  · split at hk
    · rw [← Option.some.inj hk]
      simp [unit_vectors]
    · split at hk
      · rw [← Option.some.inj hk]
        simp [unit_vectors]
      · split at hk
        · rw [← Option.some.inj hk]
          simp [unit_vectors]
        · exact absurd hk (by simp)

/-- C13: PS.keyDown maps key codes to unit vectors, upper and lower case
alike: arrow-up, 119 and 87 call G.move(0, -1); arrow-down, 115 and 83 call
G.move(0, 1); arrow-left, 97 and 65 call G.move(-1, 0); arrow-right, 100 and
68 call G.move(1, 0); every other key code makes no G.move call and leaves
the state unchanged; no key produces a diagonal or (0, 0) move. The engine's
four arrow codes are taken to differ from one another and from the eight
letter codes. -/
theorem C13_key_map (PS : Engine) (K : Keys) (s : State) (hK : KeysOK K) :
    (key_move K K.KEY_ARROW_UP = some (0, -1) ∧ key_move K 119 = some (0, -1) ∧
      key_move K 87 = some (0, -1)) ∧
    (key_move K K.KEY_ARROW_DOWN = some (0, 1) ∧ key_move K 115 = some (0, 1) ∧
      key_move K 83 = some (0, 1)) ∧
    (key_move K K.KEY_ARROW_LEFT = some (-1, 0) ∧ key_move K 97 = some (-1, 0) ∧
      key_move K 65 = some (-1, 0)) ∧
    (key_move K K.KEY_ARROW_RIGHT = some (1, 0) ∧ key_move K 100 = some (1, 0) ∧
      key_move K 68 = some (1, 0)) ∧
    (∀ key : Int,
      key ∉ [K.KEY_ARROW_UP, K.KEY_ARROW_DOWN, K.KEY_ARROW_LEFT, K.KEY_ARROW_RIGHT,
        119, 87, 115, 83, 97, 65, 100, 68] →
      key_move K key = none ∧ keyDown PS K s key = (s, [])) ∧
    (∀ (key : Int) (hv : Int × Int), key_move K key = some hv →
      keyDown PS K s key = move PS s hv.1 hv.2 ∧
      hv ∈ unit_vectors ∧ hv ≠ (0, 0) ∧ (hv.1 = 0 ∨ hv.2 = 0)) := by
  simp only [KeysOK, List.nodup_cons, List.mem_cons, List.mem_singleton,
    List.not_mem_nil, or_false, not_or, List.nodup_nil, and_true, not_false_eq_true]
    at hK
  obtain ⟨hU, hD, hL, hR, -⟩ := hK
  refine ⟨⟨?_, ?_, ?_⟩, ⟨?_, ?_, ?_⟩, ⟨?_, ?_, ?_⟩, ⟨?_, ?_, ?_⟩, ?_, ?_⟩
  · simp [key_move]
  · simp [key_move]
  · simp [key_move]
  · have h1 : ¬ (K.KEY_ARROW_DOWN = K.KEY_ARROW_UP) := fun h => hU.1 h.symm
    simp [key_move, h1, hD]
  · have h1 : ¬ ((115 : Int) = K.KEY_ARROW_UP) := fun h => hU.2.2.2.2.2.1 h.symm
    simp [key_move, h1]
  · have h1 : ¬ ((83 : Int) = K.KEY_ARROW_UP) := fun h => hU.2.2.2.2.2.2.1 h.symm
    simp [key_move, h1]
  · have h1 : ¬ (K.KEY_ARROW_LEFT = K.KEY_ARROW_UP) := fun h => hU.2.1 h.symm
    have h2 : ¬ (K.KEY_ARROW_LEFT = K.KEY_ARROW_DOWN) := fun h => hD.1 h.symm
    simp [key_move, h1, h2, hL]
  · have h1 : ¬ ((97 : Int) = K.KEY_ARROW_UP) := fun h => hU.2.2.2.2.2.2.2.1 h.symm
    have h2 : ¬ ((97 : Int) = K.KEY_ARROW_DOWN) := fun h => hD.2.2.2.2.2.2.1 h.symm
    simp [key_move, h1, h2]
  · have h1 : ¬ ((65 : Int) = K.KEY_ARROW_UP) := fun h => hU.2.2.2.2.2.2.2.2.1 h.symm
    have h2 : ¬ ((65 : Int) = K.KEY_ARROW_DOWN) := fun h => hD.2.2.2.2.2.2.2.1 h.symm
    simp [key_move, h1, h2]
  · have h1 : ¬ (K.KEY_ARROW_RIGHT = K.KEY_ARROW_UP) := fun h => hU.2.2.1 h.symm
    have h2 : ¬ (K.KEY_ARROW_RIGHT = K.KEY_ARROW_DOWN) := fun h => hD.2.1 h.symm
    have h3 : ¬ (K.KEY_ARROW_RIGHT = K.KEY_ARROW_LEFT) := fun h => hL.1 h.symm
    simp [key_move, h1, h2, h3, hR]
  · have h1 : ¬ ((100 : Int) = K.KEY_ARROW_UP) := fun h => hU.2.2.2.2.2.2.2.2.2.1 h.symm
    have h2 : ¬ ((100 : Int) = K.KEY_ARROW_DOWN) := fun h => hD.2.2.2.2.2.2.2.2.1 h.symm
    have h3 : ¬ ((100 : Int) = K.KEY_ARROW_LEFT) := fun h => hL.2.2.2.2.2.2.2.1 h.symm
    simp [key_move, h1, h2, h3]
  · have h1 : ¬ ((68 : Int) = K.KEY_ARROW_UP) := fun h => hU.2.2.2.2.2.2.2.2.2.2 h.symm
    have h2 : ¬ ((68 : Int) = K.KEY_ARROW_DOWN) := fun h => hD.2.2.2.2.2.2.2.2.2 h.symm
    have h3 : ¬ ((68 : Int) = K.KEY_ARROW_LEFT) := fun h => hL.2.2.2.2.2.2.2.2 h.symm
    simp [key_move, h1, h2, h3]
  · intro key hkey
    simp only [List.mem_cons, List.mem_singleton, List.not_mem_nil, or_false,
      not_or] at hkey
    have hnone : key_move K key = none := by
      simp [key_move, hkey]
    exact ⟨hnone, by simp [keyDown, hnone]⟩
  · intro key hv hk
    have hu := key_move_unit K key hv hk
    refine ⟨by simp [keyDown, hk], hu, ?_, ?_⟩
    · simp only [unit_vectors, List.mem_cons, List.mem_singleton, List.not_mem_nil,
        or_false] at hu
      rcases hu with rfl | rfl | rfl | rfl <;> decide
    · simp only [unit_vectors, List.mem_cons, List.mem_singleton, List.not_mem_nil,
        or_false] at hu
      rcases hu with rfl | rfl | rfl | rfl <;> simp

theorem C13_key_map_witness :
    KeysOK K0 ∧
    key_move K0 1008 = some (0, 1) ∧ key_move K0 115 = some (0, 1) ∧
    key_move K0 83 = some (0, 1) ∧
    keyDown PS0 K0 state0 115 = move PS0 state0 0 1 ∧
    keyDown PS0 K0 state0 32 = (state0, []) :=
  ⟨by decide,
    (C13_key_map PS0 K0 state0 (by decide)).2.1.1,
    (C13_key_map PS0 K0 state0 (by decide)).2.1.2.1,
    (C13_key_map PS0 K0 state0 (by decide)).2.1.2.2,
    ((C13_key_map PS0 K0 state0 (by decide)).2.2.2.2.2 115 (0, 1) (by decide)).1,
    ((C13_key_map PS0 K0 state0 (by decide)).2.2.2.2.1 32 (by decide)).2⟩

/-! ## The cell `(0, 1)` -/

theorem not_on_left_edge (PS : Engine) (s : State) (hr : Reachable PS s) :
    ¬ (s.grab_x = 0 ∧ s.grab_y = 1) := by
  rintro ⟨hx, hy⟩
  have hi := inv_of_reachable PS s hr
  obtain ⟨c, hc, hc0⟩ := hi.not_wall
  rw [hx, hy] at hc
  have hw : cell map ((1 * WIDTH) + 0) = some 0 := by decide
  have hw2 := (hi.walls _).mpr hw
  rw [hc] at hw2
  exact hc0 (Option.some.inj hw2)

/-- C15 as stated fails: the cell (0, 1) of the layout, index 1*WIDTH + 0,
holds 0 (wall) and not 1 (floor), and so does the cell (1, 0); no reachable
state has the grabber at (0, 1). -/
theorem C15_cell_0_1_is_wall :
    cell map ((1 * WIDTH) + 0) = some 0 ∧
    ¬ (cell map ((1 * WIDTH) + 0) = some 1) ∧
    cell map ((0 * WIDTH) + 1) = some 0 ∧
    ¬ ∃ (PS : Engine) (s : State), Reachable PS s ∧ s.grab_x = 0 ∧ s.grab_y = 1 := by
  refine ⟨by decide, by decide, by decide, ?_⟩
  rintro ⟨PS, s, hr, hx, hy⟩
  exact not_on_left_edge PS s hr ⟨hx, hy⟩

/-- C15, amended: the cell (0, 1) of the layout is a wall (code 0) and no
reachable state has the grabber on it; from any state with the grabber at
(0, 1) the call move(-1, 0) computes the off-grid candidate (-1, 1) and is a
no-op: position, score, gold_count and map unchanged, no engine call. -/
theorem C15_move_off_left_edge (PS : Engine) (s : State)
    (hx : s.grab_x = 0) (hy : s.grab_y = 1) :
    cell map ((1 * WIDTH) + 0) = some 0 ∧
    (∀ (PS2 : Engine) (s2 : State), Reachable PS2 s2 →
      ¬ (s2.grab_x = 0 ∧ s2.grab_y = 1)) ∧
    s.grab_x + (-1) = -1 ∧ s.grab_y + 0 = 1 ∧
    ¬ InBounds (s.grab_x + (-1)) (s.grab_y + 0) ∧
    move PS s (-1) 0 = (s, []) := by
  have hout : ¬ InBounds (s.grab_x + (-1)) (s.grab_y + 0) := by
    rw [hx, hy]
    decide
  refine ⟨by decide, fun PS2 s2 hr => not_on_left_edge PS2 s2 hr, ?_, ?_, hout,
    move_blocked PS s (-1) 0 (Or.inl hout)⟩
  · rw [hx]
    rfl
  · rw [hy]
    rfl

theorem C15_move_off_left_edge_witness :
    state_edge.grab_x = 0 ∧ state_edge.grab_y = 1 ∧
    move PS0 state_edge (-1) 0 = (state_edge, []) :=
  ⟨by rfl, by rfl,
    (C15_move_off_left_edge PS0 state_edge (by rfl) (by rfl)).2.2.2.2.2⟩

/-! ## Coordinate order of the render calls -/

theorem place_calls_target (PS : Engine) (x y code set : Int) :
    ∀ c ∈ place_calls PS x y code set, c.target = some (x, y) := by
  intro c hc
  unfold place_calls at hc
  rcases List.mem_append.mp hc with h | h
  · split at h
    · simp only [List.mem_cons, List.mem_singleton, List.not_mem_nil, or_false] at h
      rcases h with rfl | rfl <;> rfl
    · exact absurd h (List.not_mem_nil c)
  · split at h
    · simp only [List.mem_singleton] at h
      rw [h]
      rfl
    · exact absurd h (List.not_mem_nil c)

theorem init_calls (PS : Engine) (rnd : List Int) (s : State) (calls : List Call)
    (hi : init PS rnd = some (s, calls)) :
    ∃ pre : List Call, calls = pre ++
      [Call.glyphColor s.grab_y s.grab_x 0xFFC040,
        Call.statusText "Use arrows/WASD to grab fish"] := by
  unfold init at hi
  cases hd : draw_map PS map rnd with
  | none => simp [hd] at hi
  | some d =>
    obtain ⟨m, gx, gy, dc⟩ := d
    simp only [hd, Option.some.injEq, Prod.mk.injEq] at hi
    obtain ⟨rfl, rfl⟩ := hi
    unfold draw_map at hd
    cases hg : place_gold PS GOLD_MAX.toNat map rnd with
    | none => simp [hg] at hd
    | some g =>
      obtain ⟨m1, gc, rnd1⟩ := g
      simp only [hg] at hd
      cases hf : find_floor PS m1 3 COLOR_GRAB 3 rnd1 with
      | none => simp [hf] at hd
      | some pos =>
        simp only [hf, Option.some.injEq, Prod.mk.injEq] at hd
        obtain ⟨rfl, rfl, rfl, rfl⟩ := hd
        exact ⟨[Call.gridSize WIDTH HEIGHT, Call.colorAll (COLOR_FLOOR PS),
          Call.borderAll 0] ++ (wall_calls PS map ++ gc ++ pos.calls), by simp⟩

/-- The status text and sound of the gold branch are addressed to no bead. -/
theorem grab_gold_calls_no_target (s : State) (loc : Int) :
    ∀ c ∈ (grab_gold s loc).2, c.target = none := by
  intro c hc
  unfold grab_gold at hc
  simp only [] at hc
  split at hc <;>
    simp only [List.mem_cons, List.mem_singleton, List.not_mem_nil, or_false] at hc <;>
    rcases hc with rfl | rfl <;> rfl

/-- C20: during initialisation the glyph-colour call for the grabber has x
and y swapped: the last call of draw_map (followed in init only by the status
text) is PS.glyphColor(grab_y, grab_x, 0xFFC040), addressed to the bead
(grab_y, grab_x), which is the grabber cell (grab_x, grab_y) only when
grab_x = grab_y; the render calls of find_floor are addressed to the cell
(x, y) it returns; and the calls of every move(h, v) are none at all, or end
with PS.color and PS.glyph for the old cell (grab_x, grab_y) and PS.glyph and
PS.glyphColor for the new cell (nx, ny), x first, preceded only by calls
addressed to no bead. -/
theorem C20_glyph_color_swapped (PS : Engine) (rnd : List Int) (s : State)
    (calls : List Call) (hi : init PS rnd = some (s, calls)) :
    (∃ pre : List Call, calls = pre ++
      [Call.glyphColor s.grab_y s.grab_x 0xFFC040,
        Call.statusText "Use arrows/WASD to grab fish"]) ∧
    (Call.glyphColor s.grab_y s.grab_x 0xFFC040).target = some (s.grab_y, s.grab_x) ∧
    ((Call.glyphColor s.grab_y s.grab_x 0xFFC040).target = some (s.grab_x, s.grab_y) ↔
      s.grab_x = s.grab_y) ∧
    (∀ (m : List Int) (item code set : Int) (rnd2 : List Int) (p : Placed),
      find_floor PS m item code set rnd2 = some p →
      ∀ c ∈ p.calls, c.target = some (p.x, p.y)) ∧
    (∀ (s2 : State) (h v : Int),
      (move PS s2 h v).2 = [] ∨
      ∃ pre : List Call, (∀ c ∈ pre, c.target = none) ∧
        (move PS s2 h v).2 = pre ++
          [Call.color s2.grab_x s2.grab_y (COLOR_FLOOR PS),
            Call.glyph s2.grab_x s2.grab_y 0,
            Call.glyph (s2.grab_x + h) (s2.grab_y + v) COLOR_GRAB,
            Call.glyphColor (s2.grab_x + h) (s2.grab_y + v) 0xFFC040] ∧
        (move PS s2 h v).2.filterMap Call.target =
          [(s2.grab_x, s2.grab_y), (s2.grab_x, s2.grab_y),
            (s2.grab_x + h, s2.grab_y + v), (s2.grab_x + h, s2.grab_y + v)]) := by
  refine ⟨init_calls PS rnd s calls hi, rfl, ?_, ?_, ?_⟩
  · simp only [Call.target, Option.some.injEq, Prod.mk.injEq]
    constructor
    · rintro ⟨h1, -⟩
      exact h1.symm
    · intro h
      exact ⟨h.symm, h⟩
  · intro m item code set rnd2 p hp
    rw [(find_floor_spec PS m item code set rnd2 p hp).2.2.1]
    exact place_calls_target PS p.x p.y code set
  · intro s2 h v
    have hnone : ∀ (pre : List Call), (∀ c ∈ pre, c.target = none) →
        pre.filterMap Call.target = [] := by
      intro pre hpre
      induction pre with
      | nil => rfl
      | cons c rest ih =>
        rw [List.filterMap_cons, hpre c (List.mem_cons_self _ _)]
        exact ih (fun d hd => hpre d (List.mem_cons_of_mem _ hd))
    rcases move_cases PS s2 h v with ⟨-, hm⟩ | ⟨-, -, hm⟩ | ⟨-, -, -, hm⟩
    · left
      rw [hm]
    · right
      refine ⟨(grab_gold s2 (((s2.grab_y + v) * WIDTH) + (s2.grab_x + h))).2,
        grab_gold_calls_no_target s2 _, ?_, ?_⟩
      · rw [hm]
        rfl
      · rw [hm]
        show ((grab_gold s2 (((s2.grab_y + v) * WIDTH) + (s2.grab_x + h))).2 ++
          move_render PS s2 h v).filterMap Call.target = _
        rw [List.filterMap_append, hnone _ (grab_gold_calls_no_target s2 _)]
        rfl
    · right
      refine ⟨[], fun c hc => absurd hc (List.not_mem_nil c), ?_, ?_⟩
      · rw [hm]
        rfl
      · rw [hm]
        rfl

theorem C20_glyph_color_swapped_witness :
    init PS0 rnd1 = some (state_b, calls_b) ∧
    state_b.grab_x = 3 ∧ state_b.grab_y = 1 ∧
    (∃ pre : List Call, calls_b = pre ++
      [Call.glyphColor state_b.grab_y state_b.grab_x 0xFFC040,
        Call.statusText "Use arrows/WASD to grab fish"]) ∧
    (Call.glyphColor state_b.grab_y state_b.grab_x 0xFFC040).target = some (1, 3) ∧
    (move PS0 state_b 1 0).2.filterMap Call.target = [(3, 1), (3, 1), (4, 1), (4, 1)] :=
  ⟨by rfl, by rfl, by rfl,
    (C20_glyph_color_swapped PS0 rnd1 state_b calls_b (by rfl)).1,
    by rfl, by decide⟩

/-! ## Enough floor for every placement -/

theorem map_count_one : map.count 1 = 205 := by decide

/-- The gold loop run `n` times uses up `n` floor cells. -/
theorem place_gold_floor (PS : Engine) (n : Nat) :
    ∀ (m rnd m2 : List Int) (calls : List Call) (rest : List Int),
      place_gold PS n m rnd = some (m2, calls, rest) →
        (m2.count 1 : Int) = (m.count 1 : Int) - n := by
  induction n with
  | zero =>
    intro m rnd m2 calls rest hpg
    simp only [place_gold, Option.some.injEq, Prod.mk.injEq] at hpg
    obtain ⟨rfl, -, -⟩ := hpg
    simp
  | succ n ih =>
    intro m rnd m2 calls rest hpg
    rw [place_gold] at hpg
    cases hff : find_floor PS m 2 COLOR_GOLD 2 rnd with
    | none => simp [hff] at hpg
    | some p =>
      simp only [hff] at hpg
      cases hrec : place_gold PS n p.map p.rest with
      | none => simp [hrec] at hpg
      | some r =>
        obtain ⟨m3, calls3, rest3⟩ := r
        simp only [hrec, Option.some.injEq, Prod.mk.injEq] at hpg
        obtain ⟨rfl, -, -⟩ := hpg
        have h1 := ih p.map p.rest m3 calls3 rest3 hrec
        have h2 := (find_floor_map PS m 2 COLOR_GOLD 2 rnd p hff).2.1 1
        simp at h2
        rw [h1, h2]
        push_cast
        ring

/-- A map of 400 cells with a floor cell left has a round of generator values,
within the contract, on which `find_floor` returns. -/
theorem floor_left_returns (PS : Engine) (m : List Int) (hl : m.length = 400)
    (hc : 1 ≤ m.count 1) :
    ∃ rx ry : Int, (1 ≤ rx ∧ rx ≤ WIDTH) ∧ (1 ≤ ry ∧ ry ≤ HEIGHT) ∧
      cell m (((ry - 1) * WIDTH) + (rx - 1)) = some 1 ∧
      ∀ (item code set : Int) (pre : List (Int × Int)) (rest : List Int),
        ∃ p, find_floor PS m item code set
          (pre.flatMap (fun q => [q.1, q.2]) ++ rx :: ry :: rest) = some p := by
  obtain ⟨L, -, hlen, hmem⟩ := code_cells 1 m
  have hne : L ≠ [] := by
    intro h
    rw [h] at hlen
    simp at hlen
    omega
  obtain ⟨i, hi⟩ := List.exists_mem_of_ne_nil L hne
  have hcell := (hmem i).mp hi
  obtain ⟨h0, hlt⟩ := cell_lt_length hcell
  rw [hl] at hlt
  have hloc : (((i / 20 + 1) - 1) * WIDTH) + ((i % 20 + 1) - 1) = i := by
    simp only [WIDTH]
    omega
  have hhit : cell m ((((i / 20 + 1) - 1) * WIDTH) + ((i % 20 + 1) - 1)) = some 1 := by
    rw [hloc]
    exact hcell
  refine ⟨i % 20 + 1, i / 20 + 1, ?_, ?_, hhit, ?_⟩
  · simp only [WIDTH]
    omega
  · simp only [HEIGHT]
    omega
  · intro item code set pre rest
    exact find_floor_returns PS m item code set pre _ _ rest hhit

/-- C16: the static layout satisfies the placement precondition. It has 205
floor cells, at least GOLD_MAX + 1 = 16; before each of the 16 find_floor
calls of draw_map (after n <= 15 gold placements on the layout) a cell with
code 1 still exists, and there is a round of generator values within the
contract of PS.random on which the rejection loop exits, whatever rounds
came before it; and init does return on some generator values. -/
theorem C16_placement_precondition (PS : Engine) :
    map.count 1 = 205 ∧ GOLD_MAX + 1 = 16 ∧ GOLD_MAX + 1 ≤ (map.count 1 : Int) ∧
    (∀ (n : Nat) (rnd m1 : List Int) (calls : List Call) (rest : List Int),
      n ≤ 15 → place_gold PS n map rnd = some (m1, calls, rest) →
      1 ≤ m1.count 1 ∧
      ∃ rx ry : Int, (1 ≤ rx ∧ rx ≤ WIDTH) ∧ (1 ≤ ry ∧ ry ≤ HEIGHT) ∧
        cell m1 (((ry - 1) * WIDTH) + (rx - 1)) = some 1 ∧
        ∀ (item code set : Int) (pre : List (Int × Int)) (rest2 : List Int),
          ∃ p, find_floor PS m1 item code set
            (pre.flatMap (fun q => [q.1, q.2]) ++ rx :: ry :: rest2) = some p) ∧
    (∃ rnd : List Int, SamplesOK rnd ∧ ∃ r, init PS rnd = some r) := by
  refine ⟨map_count_one, by decide, by decide, ?_, ?_⟩
  · intro n rnd m1 calls rest hn hpg
    have hfl := place_gold_floor PS n map rnd m1 calls rest hpg
    have hlen := (place_gold_spec PS n map rnd m1 calls rest hpg).1
    rw [map_count_one] at hfl
    rw [map_length] at hlen
    have hc : 1 ≤ m1.count 1 := by omega
    exact ⟨hc, floor_left_returns PS m1 hlen hc⟩
  · refine ⟨rnd0, samplesOK_rnd0, ?_⟩
    have h : (init PS rnd0).isSome = true := by rfl
    exact Option.isSome_iff_exists.mp h

/-! ## Walks over the floor -/

theorem dest_append (p : Int × Int) (a b : List (Int × Int)) :
    dest p (a ++ b) = dest (dest p a) b := by
  induction a generalizing p with
  | nil => rfl
  | cons hv rest ih =>
    show dest (p.1 + hv.1, p.2 + hv.2) (rest ++ b) =
      dest (dest (p.1 + hv.1, p.2 + hv.2) rest) b
    exact ih _

theorem path_append (p : Int × Int) (a b : List (Int × Int)) :
    path p (a ++ b) = path p a ++ path (dest p a) b := by
  induction a generalizing p with
  | nil => rfl
  | cons hv rest ih =>
    show (p.1 + hv.1, p.2 + hv.2) :: path (p.1 + hv.1, p.2 + hv.2) (rest ++ b) =
      (p.1 + hv.1, p.2 + hv.2) ::
        (path (p.1 + hv.1, p.2 + hv.2) rest ++ path (dest (p.1 + hv.1, p.2 + hv.2) rest) b)
    rw [ih]

/-- A cell on a walk is where some initial part of the walk ends. -/
theorem mem_path_split (ms : List (Int × Int)) :
    ∀ (p q : Int × Int), q ∈ path p ms →
      ∃ a b : List (Int × Int), ms = a ++ b ∧ dest p a = q := by
  induction ms with
  | nil =>
    intro p q hq
    exact absurd hq (List.not_mem_nil q)
  | cons hv rest ih =>
    intro p q hq
    simp only [path, List.mem_cons] at hq
    rcases hq with h | h
    · exact ⟨[hv], rest, rfl, by rw [h]; rfl⟩
    · obtain ⟨a, b, hab, hd⟩ := ih _ q h
      exact ⟨hv :: a, b, by rw [hab]; rfl, hd⟩

theorem tour_closed : dest ((1 : Int), (1 : Int)) tour = ((1 : Int), (1 : Int)) := by
  decide

theorem tour_units : ∀ hv ∈ tour, hv ∈ unit_vectors := by
  decide

theorem tour_in_bounds : ∀ q ∈ path ((1 : Int), (1 : Int)) tour,
    InBounds q.1 q.2 := by
  decide

/-- The cells the tour steps on are exactly the floor cells of the layout. -/
theorem tour_marks :
    mark_bits (path ((1 : Int), (1 : Int)) tour) = floor_bits map := by
  decide

theorem testBit_floor_bits (m : List Int) :
    ∀ i : Nat, (floor_bits m).testBit i = true ↔ m[i]? = some 1 := by
  induction m with
  | nil =>
    intro i
    simp [floor_bits]
  | cons c t ih =>
    intro i
    cases i with
    | zero =>
      simp only [floor_bits, Nat.testBit_zero, decide_eq_true_eq, List.getElem?_cons_zero,
        Option.some.injEq]
      split <;> rename_i hc
      · simp only [hc, iff_true]
        omega
      · simp only [hc, iff_false]
        omega
    | succ k =>
      have hdiv : (2 * floor_bits t + (if c = 1 then 1 else 0)) / 2 = floor_bits t := by
        split <;> omega
      simp only [floor_bits, Nat.testBit_succ, hdiv, List.getElem?_cons_succ]
      exact ih k

theorem mark_of_mem (L : List (Int × Int)) (q : Int × Int) (hq : q ∈ L) :
    (mark_bits L).testBit ((q.2 * WIDTH) + q.1).toNat = true := by
  induction L with
  | nil => exact absurd hq (List.not_mem_nil q)
  | cons q0 rest ih =>
    simp only [mark_bits, Nat.testBit_or, Bool.or_eq_true]
    rcases List.mem_cons.mp hq with h | h
    · right
      rw [h]
      exact Nat.testBit_two_pow_self
    · exact Or.inl (ih h)

theorem mem_of_mark (L : List (Int × Int)) (i : Nat)
    (hm : (mark_bits L).testBit i = true) :
    ∃ q ∈ L, ((q.2 * WIDTH) + q.1).toNat = i := by
  induction L with
  | nil => simp [mark_bits] at hm
  | cons q0 rest ih =>
    simp only [mark_bits, Nat.testBit_or, Bool.or_eq_true, Nat.testBit_two_pow,
      decide_eq_true_eq] at hm
    rcases hm with h | h
    · obtain ⟨q, hq, hi⟩ := ih h
      exact ⟨q, List.mem_cons_of_mem _ hq, hi⟩
    · exact ⟨q0, List.mem_cons_self _ _, h⟩

theorem floor_iff_marked (i : Nat) :
    (mark_bits (path ((1 : Int), (1 : Int)) tour)).testBit i = true ↔
      map[i]? = some 1 := by
  rw [tour_marks]
  exact testBit_floor_bits map i

theorem tour_floor : ∀ q ∈ path ((1 : Int), (1 : Int)) tour,
    InBounds q.1 q.2 ∧ cell map ((q.2 * WIDTH) + q.1) = some 1 := by
  intro q hq
  have hin := tour_in_bounds q hq
  refine ⟨hin, ?_⟩
  obtain ⟨a, b, ha, hb, hx, hy⟩ := inBounds_nat hin
  have hidx : ((q.2 * WIDTH) + q.1).toNat = b * 20 + a := by
    rw [hx, hy]
    simp only [WIDTH]
    omega
  have hm := mark_of_mem _ q hq
  rw [hidx] at hm
  rw [hx, hy, cell_nat]
  exact (floor_iff_marked _).mp hm

theorem tour_covers : ∀ i < 400, map[i]? = some 1 →
    ((((i % 20 : Nat) : Int), ((i / 20 : Nat) : Int)) : Int × Int) ∈
      path ((1 : Int), (1 : Int)) tour := by
  intro i hi hone
  obtain ⟨q, hq, hidx⟩ := mem_of_mark _ i ((floor_iff_marked i).mpr hone)
  obtain ⟨a, b, ha, hb, hx, hy⟩ := inBounds_nat (tour_in_bounds q hq)
  have hi2 : i = b * 20 + a := by
    rw [← hidx, hx, hy]
    simp only [WIDTH]
    omega
  have hq2 : q = ((a : Int), (b : Int)) := Prod.ext hx hy
  have e1 : i % 20 = a := by omega
  have e2 : i / 20 = b := by omega
  rw [e1, e2, ← hq2]
  exact hq

theorem open_of_floor {q : Int × Int}
    (h : InBounds q.1 q.2 ∧ cell map ((q.2 * WIDTH) + q.1) = some 1) : Open q :=
  ⟨h.1, 1, h.2, by decide⟩

theorem open_on_tour {q : Int × Int} (h : Open q) :
    q ∈ path ((1 : Int), (1 : Int)) tour := by
  obtain ⟨hin, c, hc, hc0⟩ := h
  obtain ⟨a, b, ha, hb, hx, hy⟩ := inBounds_nat hin
  have hq : q = ((a : Int), (b : Int)) := Prod.ext hx hy
  rw [hx, hy, cell_nat] at hc
  have hone : map[b * 20 + a]? = some 1 := by
    rcases layout_codes a ha b hb with h0 | h1
    · rw [h0] at hc
      exact absurd (Option.some.inj hc).symm hc0
    · exact h1
  have hcov := tour_covers (b * 20 + a) (by omega) hone
  have e1 : (b * 20 + a) % 20 = a := by omega
  have e2 : (b * 20 + a) / 20 = b := by omega
  rw [e1, e2] at hcov
  rw [hq]
  exact hcov

/-- From every open cell there is a closed walk of unit vectors that stays on
open cells and steps on every open cell. -/
theorem closed_walk_from (c : Int × Int) (hc : Open c) :
    ∃ ms : List (Int × Int), (∀ hv ∈ ms, hv ∈ unit_vectors) ∧
      (∀ q ∈ path c ms, Open q) ∧ (∀ q, Open q → q ∈ path c ms) ∧ dest c ms = c := by
  obtain ⟨a, b, hab, hd⟩ := mem_path_split tour _ c (open_on_tour hc)
  have hclosed := tour_closed
  rw [hab, dest_append, hd] at hclosed
  have hpath : path ((1 : Int), (1 : Int)) tour =
      path ((1 : Int), (1 : Int)) a ++ path c b := by
    rw [hab, path_append, hd]
  have hrot : path c (b ++ a) = path c b ++ path ((1 : Int), (1 : Int)) a := by
    rw [path_append, hclosed]
  refine ⟨b ++ a, ?_, ?_, ?_, ?_⟩
  · intro hv hmem
    refine tour_units hv ?_
    rw [hab]
    rcases List.mem_append.mp hmem with h | h
    · exact List.mem_append.mpr (Or.inr h)
    · exact List.mem_append.mpr (Or.inl h)
  · intro q hq
    rw [hrot] at hq
    refine open_of_floor (tour_floor q ?_)
    rw [hpath]
    rcases List.mem_append.mp hq with h | h
    · exact List.mem_append.mpr (Or.inr h)
    · exact List.mem_append.mpr (Or.inl h)
  · intro q hq
    have h := open_on_tour hq
    rw [hpath] at h
    rw [hrot]
    rcases List.mem_append.mp h with h | h
    · exact List.mem_append.mpr (Or.inr h)
    · exact List.mem_append.mpr (Or.inl h)
  · rw [dest_append, hclosed, hd]

/-! ## The game can always be won -/

theorem move_not_two (PS : Engine) (s : State) (h v : Int) (i : Int)
    (hi : cell s.map i ≠ some 2) : cell (move PS s h v).1.map i ≠ some 2 := by
  rcases move_cell_change PS s h v i with hc | ⟨hc, -⟩
  · rw [hc]
    exact hi
  · exact absurd hc hi

theorem run_not_two (PS : Engine) (ms : List (Int × Int)) :
    ∀ (s : State) (i : Int), cell s.map i ≠ some 2 →
      cell (run PS s ms).1.map i ≠ some 2 := by
  induction ms with
  | nil => intro s i hi; exact hi
  | cons hv rest ih =>
    intro s i hi
    exact ih _ i (move_not_two PS s hv.1 hv.2 i hi)

/-- A move onto a cell that is open in the layout, from a state whose walls
are those of the layout, puts the grabber there and leaves no gold there. -/
theorem move_onto_open (PS : Engine) (s : State) (h v : Int) (hs : Inv s)
    (ho : Open (s.grab_x + h, s.grab_y + v)) :
    (move PS s h v).1.grab_x = s.grab_x + h ∧
    (move PS s h v).1.grab_y = s.grab_y + v ∧
    cell (move PS s h v).1.map (((s.grab_y + v) * WIDTH) + (s.grab_x + h)) ≠ some 2 := by
  obtain ⟨hin, c, hc, hc0⟩ := ho
  have hnw : cell s.map (((s.grab_y + v) * WIDTH) + (s.grab_x + h)) ≠ some 0 := by
    intro hw
    have := (hs.walls _).mp hw
    rw [hc] at this
    exact hc0 (Option.some.inj this)
  rcases move_cases PS s h v with ⟨hb, -⟩ | ⟨-, h2, hm⟩ | ⟨-, -, h2, hm⟩
  · rcases hb with hb | hb
    · exact absurd hin hb
    · exact absurd hb hnw
  · rw [hm, grab_gold_fst]
    refine ⟨rfl, rfl, ?_⟩
    show cell (store s.map (((s.grab_y + v) * WIDTH) + (s.grab_x + h)) 1)
      (((s.grab_y + v) * WIDTH) + (s.grab_x + h)) ≠ some 2
    rw [cell_store_self 1 h2]
    simp
  · rw [hm]
    exact ⟨rfl, rfl, h2⟩

/-- Along a walk over open cells every move is legal: the grabber ends where
the walk ends and no cell of the walk holds gold afterwards. -/
theorem run_walk (PS : Engine) (ms : List (Int × Int)) :
    ∀ s : State, Inv s → (∀ q ∈ path (s.grab_x, s.grab_y) ms, Open q) →
      ((run PS s ms).1.grab_x, (run PS s ms).1.grab_y) = dest (s.grab_x, s.grab_y) ms ∧
      ∀ q ∈ path (s.grab_x, s.grab_y) ms,
        cell (run PS s ms).1.map ((q.2 * WIDTH) + q.1) ≠ some 2 := by
  induction ms with
  | nil =>
    intro s _ _
    exact ⟨rfl, fun q hq => absurd hq (List.not_mem_nil q)⟩
  | cons hv rest ih =>
    intro s hs hopen
    have ho : Open (s.grab_x + hv.1, s.grab_y + hv.2) :=
      hopen _ (List.mem_cons_self _ _)
    obtain ⟨hx, hy, hn2⟩ := move_onto_open PS s hv.1 hv.2 hs ho
    have hs2 := inv_move PS s hv.1 hv.2 hs
    have hrest : ∀ q ∈ path ((move PS s hv.1 hv.2).1.grab_x,
        (move PS s hv.1 hv.2).1.grab_y) rest, Open q := by
      intro q hq
      rw [hx, hy] at hq
      exact hopen q (List.mem_cons_of_mem _ hq)
    obtain ⟨hd, hp⟩ := ih (move PS s hv.1 hv.2).1 hs2 hrest
    rw [hx, hy] at hd hp
    refine ⟨hd, ?_⟩
    intro q hq
    rcases List.mem_cons.mp hq with h | h
    · rw [h]
      exact run_not_two PS rest _ _ hn2
    · exact hp q h

theorem open_of_inv {s : State} (hs : Inv s) : Open (s.grab_x, s.grab_y) := by
  obtain ⟨c, hc, hc0⟩ := hs.not_wall
  obtain ⟨d, hd⟩ := cell_defined map_length hs.in_bounds
  refine ⟨hs.in_bounds, d, hd, ?_⟩
  rintro rfl
  have := (hs.walls _).mpr hd
  rw [hc] at this
  exact hc0 (Option.some.inj this)

/-- A reachable-shaped state in which no open cell holds gold has all the
gold collected. -/
theorem all_collected {s : State} (hs : Inv s)
    (hno : ∀ q, Open q → cell s.map ((q.2 * WIDTH) + q.1) ≠ some 2) :
    s.gold_count = GOLD_MAX := by
  have hzero : s.map.count 2 = 0 := by
    obtain ⟨L, -, hlen, hmem⟩ := code_cells 2 s.map
    cases hL : L with
    | nil =>
      rw [hL] at hlen
      exact hlen.symm
    | cons i rest =>
      exfalso
      have hi : cell s.map i = some 2 := (hmem i).mp (by rw [hL]; exact List.mem_cons_self _ _)
      obtain ⟨h0, hlt⟩ := cell_lt_length hi
      rw [hs.length_eq] at hlt
      have hloc : ((i / 20) * WIDTH) + (i % 20) = i := by
        simp only [WIDTH]
        omega
      have hin : InBounds (i % 20) (i / 20) := by
        refine ⟨by omega, ?_, by omega, ?_⟩
        · simp only [WIDTH]
          omega
        · simp only [HEIGHT]
          omega
      obtain ⟨d, hd⟩ := cell_defined map_length hin
      rw [hloc] at hd
      have hopen : Open (i % 20, i / 20) := by
        refine ⟨hin, d, by rw [hloc]; exact hd, ?_⟩
        rintro rfl
        have := (hs.walls _).mpr hd
        rw [hi] at this
        exact absurd this (by simp)
      have := hno _ hopen
      rw [hloc] at this
      exact this hi
  have hsum := hs.gold_sum
  omega

/-- C17: the game is always winnable. The non-wall cells of the static layout
form one 4-connected region: between any two of them there is a walk of unit
vectors that steps on non-wall cells only. So for every state produced by
init, and every state reachable from one, there is a finite sequence of
unit-vector moves after which gold_count = GOLD_MAX. -/
theorem C17_always_winnable (PS : Engine) (s : State) (hr : Reachable PS s) :
    (∀ c d : Int × Int, Open c → Open d →
      ∃ ms : List (Int × Int), (∀ hv ∈ ms, hv ∈ unit_vectors) ∧
        (∀ q ∈ path c ms, Open q) ∧ dest c ms = d) ∧
    (∃ ms : List (Int × Int), (∀ hv ∈ ms, hv ∈ unit_vectors) ∧
      (run PS s ms).1.gold_count = GOLD_MAX) := by
  constructor
  · intro c d hc hd
    obtain ⟨ms, hu, ho, hcov, -⟩ := closed_walk_from c hc
    obtain ⟨a, b, hab, hdest⟩ := mem_path_split ms c d (hcov d hd)
    refine ⟨a, ?_, ?_, hdest⟩
    · intro hv hmem
      exact hu hv (by rw [hab]; exact List.mem_append.mpr (Or.inl hmem))
    · intro q hq
      refine ho q ?_
      rw [hab, path_append]
      exact List.mem_append.mpr (Or.inl hq)
  · have hs := inv_of_reachable PS s hr
    obtain ⟨ms, hu, ho, hcov, -⟩ := closed_walk_from (s.grab_x, s.grab_y) (open_of_inv hs)
    refine ⟨ms, hu, ?_⟩
    obtain ⟨-, hp⟩ := run_walk PS ms s hs ho
    exact all_collected (inv_run PS ms s hs) (fun q hq => hp q (hcov q hq))

theorem C17_always_winnable_witness :
    Reachable PS0 state0 ∧
    (∃ ms : List (Int × Int), (∀ hv ∈ ms, hv ∈ unit_vectors) ∧
      (run PS0 state0 ms).1.gold_count = GOLD_MAX) ∧
    (∀ hv ∈ moves0, hv ∈ unit_vectors) ∧
    (run PS0 state0 moves0).1.gold_count = GOLD_MAX :=
  ⟨Reachable.init samplesOK_rnd0 init_rnd0,
    (C17_always_winnable PS0 state0 (Reachable.init samplesOK_rnd0 init_rnd0)).2,
    by decide, by rfl⟩

end G
